import Mathlib

/-!
Verification of the overlay key-value dictionary (src/dictionary/kv.rs) and
the phrase-selection break-point scan (src/editor/selection/phrase.rs) of
libchewing. Bytes are modelled as `Nat`, byte strings as `List Nat`, and a
phrase text as its UTF-8 bytes (Rust compares `str` and `[u8]` keys
byte-lexicographically, so this keeps the key order of the source).
-/

/-- Three-way comparison of naturals, as Rust's `Ord` on unsigned integers. -/
def cmpNat (a b : Nat) : Ordering :=
  if a < b then .lt else if a = b then .eq else .gt

/-- Lexicographic comparison of byte strings, as Rust's `Ord for [u8]` (and
for `str`/`Cow<str>`, which compare by UTF-8 bytes). -/
def cmpList : List Nat → List Nat → Ordering
  | [], [] => .eq
  | [], _ :: _ => .lt
  | _ :: _, [] => .gt
  | a :: s, b :: t =>
    match cmpNat a b with
    | .eq => cmpList s t
    | o => o

/-- Comparison of phrase keys `(syllable-key bytes, phrase-text bytes)`:
Rust's tuple ordering, first components first. -/
def cmpKey (a b : List Nat × List Nat) : Ordering :=
  match cmpList a.1 b.1 with
  | .eq => cmpList a.2 b.2
  | o => o

/-- Strict phrase-key order, the ascending order of §3's data model. -/
def keyLt (a b : List Nat × List Nat) : Prop := cmpKey a b = .lt

instance (a b : List Nat × List Nat) : Decidable (keyLt a b) := by
  unfold keyLt; infer_instance

/-- A UTF-8 continuation byte (`0x80..=0xBF`). -/
def isCont (b : Nat) : Bool := 0x80 ≤ b && b ≤ 0xBF

/-- Validity of a byte string as UTF-8, as Rust's `str::from_utf8` decides it
(Unicode Table 3-7: overlong forms, surrogates and code points above
U+10FFFF are rejected). -/
def utf8Valid : List Nat → Bool
  | [] => true
  | b :: rest =>
    if b ≤ 0x7F then utf8Valid rest
    else if 0xC2 ≤ b && b ≤ 0xDF then
      match rest with
      | c1 :: rest2 => isCont c1 && utf8Valid rest2
      | [] => false
    else if b = 0xE0 then
      match rest with
      | c1 :: c2 :: rest2 => (0xA0 ≤ c1 && c1 ≤ 0xBF) && isCont c2 && utf8Valid rest2
      | _ => false
    else if (0xE1 ≤ b && b ≤ 0xEC) || b = 0xEE || b = 0xEF then
      match rest with
      | c1 :: c2 :: rest2 => isCont c1 && isCont c2 && utf8Valid rest2
      | _ => false
    else if b = 0xED then
      match rest with
      | c1 :: c2 :: rest2 => (0x80 ≤ c1 && c1 ≤ 0x9F) && isCont c2 && utf8Valid rest2
      | _ => false
    else if b = 0xF0 then
      match rest with
      | c1 :: c2 :: c3 :: rest2 =>
        (0x90 ≤ c1 && c1 ≤ 0xBF) && isCont c2 && isCont c3 && utf8Valid rest2
      | _ => false
    else if 0xF1 ≤ b && b ≤ 0xF3 then
      match rest with
      | c1 :: c2 :: c3 :: rest2 => isCont c1 && isCont c2 && isCont c3 && utf8Valid rest2
      | _ => false
    else if b = 0xF4 then
      match rest with
      | c1 :: c2 :: c3 :: rest2 =>
        (0x80 ≤ c1 && c1 ≤ 0x8F) && isCont c2 && isCont c3 && utf8Valid rest2
      | _ => false
    else false

/-- A dictionary phrase (`Phrase` of the dictionary module; the struct itself
is outside src/, its fields fixed by §3's data model): text as UTF-8 bytes,
usage frequency, optional last-used timestamp. -/
structure Phrase where
  phrase : List Nat
  freq : Nat
  last_used : Option Nat
deriving DecidableEq

instance : Inhabited Phrase := ⟨⟨[], 0, none⟩⟩

/-- Little-endian value of a byte string (`u32::from_le_bytes` /
`u64::from_le_bytes` applied to the exact-width slice). -/
def leNat : List Nat → Nat
  | [] => 0
  | b :: rest => b + 256 * leNat rest

namespace PhraseData

/-- `PhraseData::len`: `13 + self.0[12]`. The index is modelled totally
(`getD`); `is_valid` only consults it behind the `len() > 12` short-circuit
guard (the guard itself is checked by the claim-C9 theorem). -/
def len (b : List Nat) : Nat := 13 + b.getD 12 0

/-- `PhraseData::phrase_str`: the `self.0[12]`-byte slice starting at offset
13, validated as UTF-8 (`str::from_utf8`). -/
def phrase_str (b : List Nat) : Except Unit (List Nat) :=
  let n := b.getD 12 0
  let text := (b.drop 13).take n
  if utf8Valid text then .ok text else .error ()

/-- `PhraseData::is_valid`:
`self.0.len() > 12 && self.len() <= self.0.len() && self.phrase_str().is_ok()`. -/
def is_valid (b : List Nat) : Bool :=
  decide (12 < b.length) && decide (len b ≤ b.length) && (phrase_str b).isOk

/-- `PhraseData::frequency`: little-endian u32 from bytes 0..4. -/
def frequency (b : List Nat) : Nat := leNat (b.take 4)

/-- `PhraseData::last_used`: little-endian u64 from bytes 4..12. -/
def last_used (b : List Nat) : Nat := leNat ((b.drop 4).take 8)

end PhraseData

/-- `From<PhraseData<'_>> for Phrase`. `phrase_str().unwrap()` is modelled by
`toOption.getD []`; the default branch is unreachable for a slice that passed
`is_valid` (claim C9). -/
def phraseOfData (b : List Nat) : Phrase :=
  { phrase := (PhraseData.phrase_str b).toOption.getD []
    freq := PhraseData.frequency b
    last_used := some (PhraseData.last_used b) }

/-- §4.1 `decode(bytes) -> Option<Phrase>`: the validity-filtered decoding
every reader applies
(`if pd.is_valid() { Some(Phrase::from(pd)) } else { None }`). -/
def decode (b : List Nat) : Option Phrase :=
  if PhraseData.is_valid b then some (phraseOfData b) else none

/-- `&b[i..j]` with the panic on an out-of-range bound surfaced as `none`. -/
def slice? (b : List Nat) (i j : Nat) : Option (List Nat) :=
  if i ≤ j ∧ j ≤ b.length then some ((b.drop i).take (j - i)) else none

/-- `b[i]` with the out-of-bounds panic surfaced as `none`. -/
def idx? (b : List Nat) (i : Nat) : Option Nat := b.get? i

/-- `PhraseData::len` with its indexing panic surfaced as `none`. -/
def len? (b : List Nat) : Option Nat := do
  let t ← idx? b 12
  pure (13 + t)

/-- `PhraseData::phrase_str` with every slicing panic surfaced as `none`:
`let len = self.0[12]; let data = &self.0[13..]; str::from_utf8(&data[..len])`. -/
def phrase_str? (b : List Nat) : Option (Except Unit (List Nat)) := do
  let n ← idx? b 12
  let data ← slice? b 13 b.length
  let text ← slice? data 0 n
  pure (if utf8Valid text then Except.ok text else Except.error ())

/-- `PhraseData::frequency` with the `self.0[..4]` panic surfaced as `none`
(`try_into` to `[u8; 4]` always succeeds on a 4-byte slice). -/
def frequency? (b : List Nat) : Option Nat := do
  let w ← slice? b 0 4
  pure (leNat w)

/-- `PhraseData::last_used` with the `self.0[4..12]` panic surfaced as `none`. -/
def last_used? (b : List Nat) : Option Nat := do
  let w ← slice? b 4 12
  pure (leNat w)

/-- `PhraseData::is_valid` with the Rust `&&` short-circuit shape kept and
every indexing panic surfaced as `none`. -/
def is_valid? (b : List Nat) : Option Bool :=
  if 12 < b.length then
    match len? b with
    | none => none
    | some l =>
      if l ≤ b.length then
        match phrase_str? b with
        | none => none
        | some r => some r.isOk
      else some false
  else some false

/-- `"INFO"` as bytes: the reserved metadata key skipped by `entries_iter`. -/
def INFO : List Nat := [73, 78, 70, 79]

/-- `MAX_PHRASE = "\u{10FFFF}"` as UTF-8 bytes: the exclusive upper bound of
the overlay range scan in `entries_iter_for` (`MIN_PHRASE` is the empty
string). -/
def MAX_PHRASE : List Nat := [0xF4, 0x8F, 0xBF, 0xBF]

/-- The overlay key-value dictionary `KVDictionary<T>`. The backing store is
its full `iter()` listing of `(key bytes, value bytes)` pairs (`find` is
exact-key selection from it, per the §4.2 contract that `find` returns all
stored values whose key equals the argument); `none` is the storeless
in-memory dictionary. `btree` and `graveyard` are the `BTreeMap` overlay and
`BTreeSet` tombstone set as their in-order entry listings (`WF` states the
map's ordering invariant). -/
structure KVDictionary where
  store : Option (List (List Nat × List Nat))
  btree : List ((List Nat × List Nat) × Nat × Nat)
  graveyard : List (List Nat × List Nat)
deriving DecidableEq

/-- `KVStore::find` derived from the full listing: all values whose key
equals `k` exactly (not a prefix scan). -/
def storeFind (s : List (List Nat × List Nat)) (k : List Nat) : List (List Nat) :=
  (s.filter (fun e => decide (e.1 = k))).map (·.2)

/-- The backing-store half of `entries_iter_for`: `find` results decoded,
invalid records silently skipped (`filter_map` over `is_valid`). -/
def store_entries_for (d : KVDictionary) (k : List Nat) : List Phrase :=
  match d.store with
  | none => []
  | some s => (storeFind s k).filterMap decode

/-- The overlay phrase built for a btree entry
(`Phrase { phrase: key.1, freq: value.0, last_used: Some(value.1) }`). -/
def btreePhrase (e : (List Nat × List Nat) × Nat × Nat) : Phrase :=
  { phrase := e.1.2, freq := e.2.1, last_used := some e.2.2 }

/-- The `min_key..max_key` bound of the overlay range scan: phrase keys `x`
with `(k, "") <= x < (k, MAX_PHRASE)`. -/
def inRange (k : List Nat) (x : List Nat × List Nat) : Bool :=
  decide (cmpKey (k, []) x ≠ .gt) && decide (cmpKey x (k, MAX_PHRASE) = .lt)

/-- `self.btree.range(min_key..max_key)`: on the in-order listing of an
ordered map a range scan is the in-order sublist within the bounds. -/
def btreeRange (d : KVDictionary) (k : List Nat) :
    List ((List Nat × List Nat) × Nat × Nat) :=
  d.btree.filter (fun e => inRange k e.1)

/-- `entries_iter_for(syllable_bytes)`: store stream chained with the overlay
range stream, then filtered against the graveyard. Takes the syllable key
bytes directly (the Rust signature takes a `SyllableSlice` and immediately
calls `get_bytes`, an encoding defined outside src/). -/
def entries_iter_for (d : KVDictionary) (k : List Nat) : List Phrase :=
  (store_entries_for d k ++ (btreeRange d k).map btreePhrase).filter
    (fun p => decide ((k, p.phrase) ∉ d.graveyard))

/-- The backing-store half of `entries_iter`: the full listing minus the
`INFO` key, decoded, invalid records skipped. -/
def store_entries (d : KVDictionary) : List (List Nat × Phrase) :=
  match d.store with
  | none => []
  | some s =>
    (s.filter (fun e => decide (e.1 ≠ INFO))).filterMap
      (fun e => (decode e.2).map (fun p => (e.1, p)))

/-- The overlay half of `entries_iter`: every btree entry as
`(key bytes, Phrase)`. -/
def btree_entries (d : KVDictionary) : List (List Nat × Phrase) :=
  d.btree.map (fun e => (e.1.1, btreePhrase e))

/-- The phrase key of a merged-stream element, the comparison key of the
merge loop (`(&x.0, x.1.as_str())`). -/
def ekey (e : List Nat × Phrase) : List Nat × List Nat := (e.1, e.2.phrase)

/-- The `iter::from_fn` merge loop of `entries_iter`, as a function of the
remaining elements of the two peeked streams: unequal keys emit the smaller
side and advance it; equal keys emit the overlay side when the store
frequency is `Less | Equal` (advancing both) and the store side when it is
`Greater` (advancing both). -/
def mergeDedup : List (List Nat × Phrase) → List (List Nat × Phrase) → List (List Nat × Phrase)
  | [], ys => ys
  | x :: xs, [] => x :: xs
  | x :: xs, y :: ys =>
    match cmpKey (ekey x) (ekey y) with
    | .lt => x :: mergeDedup xs (y :: ys)
    | .eq =>
      if x.2.freq ≤ y.2.freq then y :: mergeDedup xs ys
      else x :: mergeDedup xs ys
    | .gt => y :: mergeDedup (x :: xs) ys
termination_by xs ys => xs.length + ys.length

/-- `entries_iter`: the merged stream filtered against the graveyard. -/
def entries_iter (d : KVDictionary) : List (List Nat × Phrase) :=
  (mergeDedup (store_entries d) (btree_entries d)).filter
    (fun e => decide ((e.1, e.2.phrase) ∉ d.graveyard))

/-- Phrase comparison. Modelled from the spec: "same text → compare
frequency, tie broken by last-used timestamp, higher wins" (the `Ord`
instance of `Phrase` lives outside src/; it is only ever applied to two
phrases of equal text). `Option` is ordered as Rust's `Option<u64>`,
`None < Some _`. -/
def phraseCmp (a b : Phrase) : Ordering :=
  match cmpNat a.freq b.freq with
  | .eq =>
    match a.last_used, b.last_used with
    | none, none => .eq
    | none, some _ => .lt
    | some _, none => .gt
    | some u, some v => cmpNat u v
  | o => o

/-- `cmp::max(&phrase, &phrases[index])`: the stored entry survives unless
the incoming phrase is strictly greater (`max` returns its second argument
when the two compare equal). -/
def phraseMax (pNew stored : Phrase) : Phrase :=
  if phraseCmp stored pNew = .lt then pNew else stored

/-- The `lookup_first_n_phrases` loop state: `sort_map` maps a phrase text to
the index of its entry in `phrases`. -/
structure LookupState where
  sort_map : List (List Nat × Nat)
  phrases : List Phrase

/-- One iteration of the `lookup_first_n_phrases` loop: an occupied
`sort_map` entry replaces the stored phrase at its index with
`cmp::max(&phrase, &phrases[index])`, a vacant one appends. The dedup key
`phrase.to_string()` is the phrase text (modelled from the spec: §4.4
deduplicates "by phrase text"; `Display for Phrase` is outside src/). -/
def lookupStep (st : LookupState) (p : Phrase) : LookupState :=
  match (st.sort_map.find? (fun e => e.1 == p.phrase)).map (·.2) with
  | some index =>
    { st with phrases := st.phrases.set index (phraseMax p (st.phrases.getD index default)) }
  | none =>
    { sort_map := st.sort_map ++ [(p.phrase, st.phrases.length)]
      phrases := st.phrases ++ [p] }

/-- `lookup_first_n_phrases(syllables, first)`: the dedup loop over
`entries_iter_for`, truncated to `first` entries. -/
def lookup_first_n_phrases (d : KVDictionary) (k : List Nat) (first : Nat) : List Phrase :=
  (((entries_iter_for d k).foldl lookupStep ⟨[], []⟩).phrases).take first

/-- `DictionaryUpdateError { source: None }` (the `source` is always `None`
in this core). -/
inductive DictionaryUpdateError
  | mk
deriving DecidableEq

/-- `BTreeMap::insert` on the in-order listing: place the new entry at its
key position, replacing an equal key. -/
def btreeInsert (key : List Nat × List Nat) (v : Nat × Nat) :
    List ((List Nat × List Nat) × Nat × Nat) → List ((List Nat × List Nat) × Nat × Nat)
  | [] => [(key, v)]
  | e :: rest =>
    match cmpKey key e.1 with
    | .lt => (key, v) :: e :: rest
    | .eq => (key, v) :: rest
    | .gt => e :: btreeInsert key v rest

/-- `BTreeMap::remove` on the in-order listing (on a well-formed listing the
key occurs at most once). -/
def btreeRemove (key : List Nat × List Nat)
    (b : List ((List Nat × List Nat) × Nat × Nat)) :
    List ((List Nat × List Nat) × Nat × Nat) :=
  b.filter (fun e => decide (e.1 ≠ key))

/-- `BTreeSet::insert` on the membership listing. -/
def graveyardInsert (key : List Nat × List Nat) (g : List (List Nat × List Nat)) :
    List (List Nat × List Nat) :=
  if key ∈ g then g else g ++ [key]

/-- `add_phrase`: error when any entry of `entries_iter_for` has the same
text, otherwise insert into the overlay with the phrase's frequency and
`last_used.unwrap_or_default()`. -/
def add_phrase (d : KVDictionary) (k : List Nat) (phrase : Phrase) :
    Except DictionaryUpdateError KVDictionary :=
  if (entries_iter_for d k).any (fun ph => ph.phrase == phrase.phrase) then
    .error .mk
  else
    .ok { d with
      btree := btreeInsert (k, phrase.phrase) (phrase.freq, phrase.last_used.getD 0) d.btree }

/-- `update_phrase`: unconditional overlay upsert. The source returns
`Ok(())` unconditionally, so the `Result` wrapper carries nothing and is
omitted. -/
def update_phrase (d : KVDictionary) (k : List Nat) (phrase : Phrase)
    (user_freq time : Nat) : KVDictionary :=
  { d with btree := btreeInsert (k, phrase.phrase) (user_freq, time) d.btree }

/-- `remove_phrase`: delete the key from the overlay and insert it into the
graveyard. The source returns `Ok(())` unconditionally, so the `Result`
wrapper is omitted. -/
def remove_phrase (d : KVDictionary) (k : List Nat) (phrase_bytes : List Nat) :
    KVDictionary :=
  { d with
    btree := btreeRemove (k, phrase_bytes) d.btree
    graveyard := graveyardInsert (k, phrase_bytes) d.graveyard }

/-- Well-formed dictionary state: the overlay listing is in strictly
ascending phrase-key order, as a `BTreeMap`'s iteration order always is. -/
def WF (d : KVDictionary) : Prop :=
  d.btree.Pairwise (fun a b => cmpKey a.1 b.1 = .lt)

instance (d : KVDictionary) : Decidable (WF d) := by
  unfold WF
  infer_instance

/-- The dedup loop of `lookup_first_n_phrases` restated on the output list
alone: replace every entry carrying the incoming text (on a well-formed
state there is exactly one) by `cmp::max`, or append a first-seen text.
`lookupStep` is proved to coincide with this once `sort_map` indexes
`phrases` by text. -/
def dedupStep (acc : List Phrase) (p : Phrase) : List Phrase :=
  if acc.any (fun q => q.phrase == p.phrase) then
    acc.map (fun q => if q.phrase == p.phrase then phraseMax p q else q)
  else acc ++ [p]

/-- The fully deduplicated (untruncated) candidate list. -/
def dedupPhrases (s : List Phrase) : List Phrase := s.foldl dedupStep []

/-- First-seen-order accumulation of phrase texts. -/
def firstSeenStep (acc : List (List Nat)) (t : List Nat) : List (List Nat) :=
  if t ∈ acc then acc else acc ++ [t]

/-- The `sort_map` invariant of the lookup loop: every map entry points at
the (unique) phrase carrying its text, every stored phrase is indexed, and
texts are not repeated. -/
def SortMapInv (st : LookupState) : Prop :=
  (∀ t i, (t, i) ∈ st.sort_map → ∃ q, st.phrases.get? i = some q ∧ q.phrase = t) ∧
  (∀ i q, st.phrases.get? i = some q → (q.phrase, i) ∈ st.sort_map) ∧
  (st.phrases.map (·.phrase)).Nodup

/-- The surviving-duplicate property of §4.4's first-N lookup: the phrase
came from the consumed stream and no stream entry of the same text compares
strictly larger under `(frequency, last-used)`. -/
def Dom (u : List Phrase) (p : Phrase) : Prop :=
  p ∈ u ∧ ∀ q ∈ u, q.phrase = p.phrase → phraseCmp p q ≠ .lt

/-- A composition-buffer symbol. Modelled from the spec: the editor's
`Symbol` (conversion module, outside src/) matters to the break-point scan
only through its `is_syllable` test. -/
structure BufSymbol where
  is_syllable : Bool
deriving DecidableEq

/-- The `loop` of `PhraseSelector::next_break_point` with explicit fuel
(`none`: the loop has not finished within `fuel` iterations). One iteration
checks `self.buffer.len() == cursor`, then increments the cursor only when
`self.buffer[cursor].is_syllable()`. -/
def next_break_point_fuel (buffer : List BufSymbol) : Nat → Nat → Option Nat
  | 0, _ => none
  | fuel + 1, cursor =>
    if buffer.length = cursor then some cursor
    else if (buffer.getD cursor ⟨false⟩).is_syllable then
      next_break_point_fuel buffer fuel (cursor + 1)
    else next_break_point_fuel buffer fuel cursor

theorem cmpNat_eq_iff {a b : Nat} : cmpNat a b = .eq ↔ a = b := by
  unfold cmpNat; split <;> rename_i h
  · simp; omega
  · split <;> simp_all
theorem cmpNat_lt_iff {a b : Nat} : cmpNat a b = .lt ↔ a < b := by
  unfold cmpNat; split <;> rename_i h
  · simp [h]
  · split <;> simp <;> omega
theorem cmpNat_gt_iff {a b : Nat} : cmpNat a b = .gt ↔ b < a := by
  unfold cmpNat; split <;> rename_i h
  · simp; omega
  · split <;> simp <;> omega

theorem cmpList_eq_iff : ∀ {s t : List Nat}, cmpList s t = .eq ↔ s = t := by
  intro s
  induction s with
  | nil => intro t; cases t <;> simp [cmpList]
  | cons a s ih =>
    intro t
    cases t with
    | nil => simp [cmpList]
    | cons b t =>
      show (match cmpNat a b with | .eq => cmpList s t | o => o) = .eq ↔ _
      rcases h : cmpNat a b with _ | _ | _ <;> simp_all [cmpNat_eq_iff, cmpNat_lt_iff, cmpNat_gt_iff]
      · omega
      · omega

theorem cmpList_refl (s : List Nat) : cmpList s s = .eq := cmpList_eq_iff.mpr rfl

theorem cmpList_gt_iff : ∀ {s t : List Nat}, cmpList s t = .gt ↔ cmpList t s = .lt := by
  intro s
  induction s with
  | nil => intro t; cases t <;> simp [cmpList]
  | cons a s ih =>
    intro t
    cases t with
    | nil => simp [cmpList]
    | cons b t =>
      show (match cmpNat a b with | .eq => cmpList s t | o => o) = .gt ↔
        (match cmpNat b a with | .eq => cmpList t s | o => o) = .lt
      rcases h : cmpNat a b with _ | _ | _ <;>
        rcases h' : cmpNat b a with _ | _ | _ <;>
          simp_all [cmpNat_eq_iff, cmpNat_lt_iff, cmpNat_gt_iff] <;> omega

theorem cmpList_lt_trans : ∀ {s t u : List Nat},
    cmpList s t = .lt → cmpList t u = .lt → cmpList s u = .lt := by
  intro s
  induction s with
  | nil =>
    intro t u h1 h2
    cases t with
    | nil => exact h2
    | cons b t =>
      cases u with
      | nil => simp [cmpList] at h2
      | cons c u => simp [cmpList]
  | cons a s ih =>
    intro t u h1 h2
    cases t with
    | nil => simp [cmpList] at h1
    | cons b t =>
      cases u with
      | nil => simp [cmpList] at h2
      | cons c u =>
        rcases hab : cmpNat a b with _ | _ | _ <;>
          rcases hbc : cmpNat b c with _ | _ | _ <;>
            simp only [cmpList, hab, hbc] at h1 h2 ⊢ <;>
              first
              | exact Ordering.noConfusion h1
              | exact Ordering.noConfusion h2
              | skip
        · have hac : cmpNat a c = .lt := cmpNat_lt_iff.mpr (by
            have := cmpNat_lt_iff.mp hab; have := cmpNat_lt_iff.mp hbc; omega)
          simp [hac]
        · have hac : cmpNat a c = .lt := cmpNat_lt_iff.mpr (by
            have := cmpNat_lt_iff.mp hab; have := cmpNat_eq_iff.mp hbc; omega)
          simp [hac]
        · have hac : cmpNat a c = .lt := cmpNat_lt_iff.mpr (by
            have := cmpNat_eq_iff.mp hab; have := cmpNat_lt_iff.mp hbc; omega)
          simp [hac]
        · have hac : cmpNat a c = .eq := cmpNat_eq_iff.mpr (by
            have := cmpNat_eq_iff.mp hab; have := cmpNat_eq_iff.mp hbc; omega)
          simp [hac]
          exact ih h1 h2

theorem cmpList_lt_asymm {s t : List Nat} (h : cmpList s t = .lt) : cmpList t s ≠ .lt := by
  intro h'
  rw [← cmpList_gt_iff] at h'
  rw [h] at h'
  exact absurd h' (by simp)

theorem cmpKey_eq_iff {a b : List Nat × List Nat} : cmpKey a b = .eq ↔ a = b := by
  unfold cmpKey
  rcases h : cmpList a.1 b.1 with _ | _ | _ <;>
    simp_all [cmpList_eq_iff, Prod.ext_iff]
  · intro h'; rw [h'] at h; simp [cmpList_refl] at h
  · intro h'; rw [h'] at h; simp [cmpList_refl] at h

theorem cmpKey_refl (a : List Nat × List Nat) : cmpKey a a = .eq := cmpKey_eq_iff.mpr rfl

theorem cmpKey_gt_iff {a b : List Nat × List Nat} : cmpKey a b = .gt ↔ cmpKey b a = .lt := by
  unfold cmpKey
  rcases h : cmpList a.1 b.1 with _ | _ | _ <;>
    rcases h' : cmpList b.1 a.1 with _ | _ | _ <;> simp only
  · exact absurd h' (cmpList_lt_asymm h)
  · rw [cmpList_eq_iff.mp h'] at h; rw [cmpList_refl] at h; exact Ordering.noConfusion h
  · simp
  · rw [cmpList_eq_iff.mp h] at h'; rw [cmpList_refl] at h'; exact Ordering.noConfusion h'
  · exact cmpList_gt_iff
  · rw [cmpList_eq_iff.mp h] at h'; rw [cmpList_refl] at h'; exact Ordering.noConfusion h'
  · rw [cmpList_eq_iff.mp h'] at h; rw [cmpList_refl] at h; exact Ordering.noConfusion h
  · exact Ordering.noConfusion ((cmpList_gt_iff.mp h').symm.trans h)

theorem cmpKey_lt_trans {a b c : List Nat × List Nat} :
    cmpKey a b = .lt → cmpKey b c = .lt → cmpKey a c = .lt := by
  unfold cmpKey
  rcases hab : cmpList a.1 b.1 with _ | _ | _ <;>
    rcases hbc : cmpList b.1 c.1 with _ | _ | _ <;> intro h1 h2 <;> try simp_all
  · rw [cmpList_lt_trans hab hbc]
  · rw [cmpList_eq_iff.mp hbc] at hab; rw [hab]
  · rw [cmpList_eq_iff.mp hab] at *; rw [hbc]
  · rw [cmpList_eq_iff.mp hab, cmpList_eq_iff.mp hbc, cmpList_refl]
    exact cmpList_lt_trans h1 h2

theorem cmpKey_lt_ne {a b : List Nat × List Nat} (h : cmpKey a b = .lt) : a ≠ b := by
  intro he; rw [he, cmpKey_refl] at h; exact absurd h (by simp)

theorem keyLt_trans {a b c : List Nat × List Nat} :
    keyLt a b → keyLt b c → keyLt a c := cmpKey_lt_trans

theorem keyLt_ne {a b : List Nat × List Nat} (h : keyLt a b) : a ≠ b := cmpKey_lt_ne h

theorem keyLt_irrefl (a : List Nat × List Nat) : ¬ keyLt a a := by
  intro h; exact keyLt_ne h rfl

theorem decode_eq_none_of_not_valid {b : List Nat} (h : PhraseData.is_valid b = false) :
    decode b = none := by
  unfold decode; rw [h]; rfl

theorem filterMap_decode_skip (l : List (List Nat)) :
    l.filterMap decode = (l.filter (fun v => PhraseData.is_valid v)).filterMap decode := by
  induction l with
  | nil => rfl
  | cons v l ih =>
    by_cases hv : PhraseData.is_valid v
    · simp [List.filterMap_cons, List.filter_cons, hv, ih]
    · rw [Bool.not_eq_true] at hv
      simp [List.filterMap_cons, List.filter_cons, hv, decode_eq_none_of_not_valid hv, ih]

theorem storeFind_filter_valid (s : List (List Nat × List Nat)) (k : List Nat) :
    storeFind (s.filter (fun e => PhraseData.is_valid e.2)) k =
      (storeFind s k).filter (fun v => PhraseData.is_valid v) := by
  induction s with
  | nil => rfl
  | cons e s ih =>
    by_cases hv : PhraseData.is_valid e.2 <;> by_cases hk : e.1 = k <;>
      simp_all [storeFind, List.filter_cons] <;> simp_all [Bool.not_eq_true]

theorem store_entries_skip_aux (l : List (List Nat × List Nat)) :
    l.filterMap (fun e => (decode e.2).map (fun p => (e.1, p))) =
      (l.filter (fun e => PhraseData.is_valid e.2)).filterMap
        (fun e => (decode e.2).map (fun p => (e.1, p))) := by
  induction l with
  | nil => rfl
  | cons e l ih =>
    by_cases hv : PhraseData.is_valid e.2
    · simp [List.filterMap_cons, List.filter_cons, hv, ih]
    · rw [Bool.not_eq_true] at hv
      simp [List.filterMap_cons, List.filter_cons, hv, decode_eq_none_of_not_valid hv, ih]

theorem filter_swap_valid_info (l : List (List Nat × List Nat)) :
    (l.filter (fun e => PhraseData.is_valid e.2)).filter (fun e => decide (e.1 ≠ INFO)) =
      (l.filter (fun e => decide (e.1 ≠ INFO))).filter (fun e => PhraseData.is_valid e.2) := by
  induction l with
  | nil => rfl
  | cons e l ih =>
    by_cases hv : PhraseData.is_valid e.2 <;> by_cases hk : e.1 ≠ INFO <;>
      simp_all [List.filter_cons] <;> simp_all [Bool.not_eq_true]

theorem phrase_str_isOk (b : List Nat) :
    (PhraseData.phrase_str b).isOk = utf8Valid ((b.drop 13).take (b.getD 12 0)) := by
  show (if utf8Valid ((b.drop 13).take (b.getD 12 0)) = true
    then Except.ok ((b.drop 13).take (b.getD 12 0))
    else (Except.error () : Except Unit (List Nat))).isOk = _
  by_cases h : utf8Valid ((b.drop 13).take (b.getD 12 0)) = true
  · rw [if_pos h, h]; rfl
  · rw [if_neg h]
    rw [Bool.not_eq_true] at h
    rw [h]
    rfl

theorem is_valid_iff (b : List Nat) :
    PhraseData.is_valid b = true ↔
      (12 < b.length ∧ 13 + b.getD 12 0 ≤ b.length ∧
        utf8Valid ((b.drop 13).take (b.getD 12 0)) = true) := by
  unfold PhraseData.is_valid PhraseData.len
  rw [phrase_str_isOk]
  simp [Bool.and_eq_true, decide_eq_true_eq, and_assoc]

/-- C5: the record decoder accepts a byte slice iff its length exceeds 12,
the declared total length `13 + b[12]` fits, and the text bytes are valid
UTF-8; on acceptance the frequency is the little-endian u32 of bytes 0..4,
the last-used the little-endian u64 of bytes 4..12, and the text the
declared slice. Rejected records are skipped silently by both readers:
deleting the invalid records from the backing store changes no reader
output. -/
theorem spec_c5_record_codec (b : List Nat) :
    (decode b =
      if 12 < b.length ∧ 13 + b.getD 12 0 ≤ b.length ∧
          utf8Valid ((b.drop 13).take (b.getD 12 0)) = true
        then some ⟨(b.drop 13).take (b.getD 12 0), leNat (b.take 4),
          some (leNat ((b.drop 4).take 8))⟩
        else none) ∧
    (∀ s bt g k, store_entries_for ⟨some s, bt, g⟩ k =
      store_entries_for ⟨some (s.filter (fun e => PhraseData.is_valid e.2)), bt, g⟩ k) ∧
    (∀ s bt g, store_entries ⟨some s, bt, g⟩ =
      store_entries ⟨some (s.filter (fun e => PhraseData.is_valid e.2)), bt, g⟩) := by
  refine ⟨?_, ?_, ?_⟩
  · rcases hv : PhraseData.is_valid b with _ | _
    · rw [decode_eq_none_of_not_valid hv]
      rw [if_neg]
      intro hc
      rw [← is_valid_iff] at hc
      rw [hv] at hc
      exact Bool.noConfusion hc
    · have hc := is_valid_iff b |>.mp hv
      rw [if_pos hc]
      unfold decode
      rw [hv, if_pos rfl]
      have hok : PhraseData.phrase_str b = Except.ok ((b.drop 13).take (b.getD 12 0)) := by
        unfold PhraseData.phrase_str
        rw [if_pos hc.2.2]
      simp [phraseOfData, hok, Except.toOption, PhraseData.frequency, PhraseData.last_used]
  · intro s bt g k
    show (storeFind s k).filterMap decode =
      (storeFind (s.filter (fun e => PhraseData.is_valid e.2)) k).filterMap decode
    rw [storeFind_filter_valid, ← filterMap_decode_skip]
  · intro s bt g
    show (s.filter (fun e => decide (e.1 ≠ INFO))).filterMap
        (fun e => (decode e.2).map (fun p => (e.1, p))) = _
    show _ = ((s.filter (fun e => PhraseData.is_valid e.2)).filter
        (fun e => decide (e.1 ≠ INFO))).filterMap
        (fun e => (decode e.2).map (fun p => (e.1, p)))
    rw [filter_swap_valid_info, ← store_entries_skip_aux]

theorem idx12_eq {b : List Nat} (h1 : 12 < b.length) : idx? b 12 = some (b.getD 12 0) := by
  show b.get? 12 = some (b.getD 12 0)
  rcases hv : b.get? 12 with _ | v
  · rw [List.get?_eq_none] at hv; omega
  · rw [List.getD_eq_get?, hv]; rfl

theorem len12_eq {b : List Nat} (h1 : 12 < b.length) : len? b = some (13 + b.getD 12 0) := by
  unfold len?
  rw [idx12_eq h1]
  rfl

theorem phrase_str?_eq {b : List Nat} (h1 : 12 < b.length) (h2 : 13 + b.getD 12 0 ≤ b.length) :
    phrase_str? b = some (PhraseData.phrase_str b) := by
  have hdata : slice? b 13 b.length = some (b.drop 13) := by
    unfold slice?
    rw [if_pos ⟨by omega, le_rfl⟩]
    rw [show b.length - 13 = (b.drop 13).length by rw [List.length_drop]]
    rw [List.take_length]
  have htext : slice? (b.drop 13) 0 (b.getD 12 0) =
      some ((b.drop 13).take (b.getD 12 0)) := by
    unfold slice?
    rw [if_pos ⟨Nat.zero_le _, by rw [List.length_drop]; omega⟩]
    simp
  unfold phrase_str?
  rw [idx12_eq h1, hdata]
  simp only [Option.bind_eq_bind, Option.some_bind]
  rw [htext]
  simp only [Option.some_bind]
  rfl

/-- C9: evaluating `PhraseData::is_valid` panics on no byte slice (every
indexing step sits behind the short-circuit conjunction), and whenever it
returns `true` the subsequent reads `frequency()`, `last_used()` and
`phrase_str()` are in bounds with `phrase_str()` returning `Ok`, so
`From<PhraseData> for Phrase` cannot panic on a validated slice. -/
theorem spec_c9_validation_guards_reads (b : List Nat) :
    is_valid? b = some (PhraseData.is_valid b) ∧
    (PhraseData.is_valid b = true →
      frequency? b = some (PhraseData.frequency b) ∧
      last_used? b = some (PhraseData.last_used b) ∧
      ∃ t, phrase_str? b = some (Except.ok t) ∧
        phraseOfData b = ⟨t, PhraseData.frequency b, some (PhraseData.last_used b)⟩) := by
  by_cases h1 : 12 < b.length
  · by_cases h2 : 13 + b.getD 12 0 ≤ b.length
    · have hps := phrase_str?_eq h1 h2
      have hval : PhraseData.is_valid b = (PhraseData.phrase_str b).isOk := by
        unfold PhraseData.is_valid PhraseData.len
        rw [decide_eq_true h1, decide_eq_true h2, Bool.true_and, Bool.true_and]
      constructor
      · unfold is_valid?
        rw [if_pos h1]
        simp only [len12_eq h1]
        rw [if_pos h2]
        simp only [hps, hval]
      · intro hv
        refine ⟨?_, ?_, ?_⟩
        · unfold frequency? slice?
          rw [if_pos ⟨by omega, by omega⟩]
          simp [PhraseData.frequency]
        · unfold last_used? slice?
          rw [if_pos ⟨by omega, by omega⟩]
          show some (leNat ((b.drop 4).take (12 - 4))) = _
          norm_num [PhraseData.last_used]
        · rw [hval] at hv
          rcases hok : PhraseData.phrase_str b with e | t
          · rw [hok] at hv; exact Bool.noConfusion hv
          · refine ⟨t, by rw [hps, hok], ?_⟩
            simp [phraseOfData, hok, Except.toOption]
    · have hval : PhraseData.is_valid b = false := by
        unfold PhraseData.is_valid PhraseData.len
        rw [decide_eq_false h2]
        simp
      constructor
      · unfold is_valid?
        rw [if_pos h1]
        simp only [len12_eq h1]
        rw [if_neg h2, hval]
      · intro hv; rw [hval] at hv; exact Bool.noConfusion hv
  · have hval : PhraseData.is_valid b = false := by
      unfold PhraseData.is_valid
      rw [decide_eq_false h1]
      simp
    constructor
    · unfold is_valid?
      rw [if_neg h1, hval]
    · intro hv; rw [hval] at hv; exact Bool.noConfusion hv

theorem next_break_point_some_eq_length (buffer : List BufSymbol) :
    ∀ fuel cursor r, next_break_point_fuel buffer fuel cursor = some r → r = buffer.length := by
  intro fuel
  induction fuel with
  | zero => intro cursor r h; simp [next_break_point_fuel] at h
  | succ fuel ih =>
    intro cursor r h
    unfold next_break_point_fuel at h
    split at h
    · rename_i he; cases h; omega
    · split at h
      · exact ih _ _ h
      · exact ih _ _ h

theorem next_break_point_terminates (buffer : List BufSymbol) :
    ∀ n cursor, buffer.length - cursor = n → cursor ≤ buffer.length →
      (∀ i, cursor ≤ i → i < buffer.length → (buffer.getD i ⟨false⟩).is_syllable = true) →
      next_break_point_fuel buffer (n + 1) cursor = some buffer.length := by
  intro n
  induction n with
  | zero =>
    intro cursor hn hc _
    unfold next_break_point_fuel
    have : buffer.length = cursor := by omega
    simp [this]
  | succ n ih =>
    intro cursor hn hc hall
    unfold next_break_point_fuel
    have hlt : cursor < buffer.length := by omega
    have hne : ¬ buffer.length = cursor := by omega
    simp only [hne, if_false]
    rw [if_pos (hall cursor le_rfl hlt)]
    exact ih (cursor + 1) (by omega) (by omega) (fun i hi hi2 => hall i (by omega) hi2)

theorem next_break_point_stuck (buffer : List BufSymbol) :
    ∀ fuel cursor, cursor ≤ buffer.length →
      (∃ i, cursor ≤ i ∧ i < buffer.length ∧ ¬ (buffer.getD i ⟨false⟩).is_syllable = true) →
      next_break_point_fuel buffer fuel cursor = none := by
  intro fuel
  induction fuel with
  | zero => intro cursor _ _; rfl
  | succ fuel ih =>
    intro cursor hc ⟨i, hi1, hi2, hi3⟩
    unfold next_break_point_fuel
    have hne : ¬ buffer.length = cursor := by omega
    simp only [hne, if_false]
    by_cases hs : (buffer.getD cursor ⟨false⟩).is_syllable = true
    · rw [if_pos hs]
      have hic : i ≠ cursor := fun he => hi3 (he ▸ hs)
      exact ih (cursor + 1) (by omega) ⟨i, by omega, hi2, hi3⟩
    · rw [if_neg hs]
      exact ih cursor hc ⟨i, hi1, hi2, hi3⟩

/-- C10: for a cursor within the buffer, `next_break_point` terminates iff
every symbol at an index at or beyond the cursor is a syllable (a
non-syllable leaves the cursor unchanged and the loop spins forever), and
when it terminates it returns the buffer's length. -/
theorem spec_c10_next_break_point (buffer : List BufSymbol) (cursor : Nat)
    (h : cursor ≤ buffer.length) :
    ((∃ fuel, (next_break_point_fuel buffer fuel cursor).isSome) ↔
      (∀ i, cursor ≤ i → i < buffer.length → (buffer.getD i ⟨false⟩).is_syllable = true)) ∧
    (∀ fuel r, next_break_point_fuel buffer fuel cursor = some r → r = buffer.length) := by
  constructor
  · constructor
    · intro ⟨fuel, hf⟩
      by_contra hall
      push_neg at hall
      obtain ⟨i, hi1, hi2, hi3⟩ := hall
      rw [next_break_point_stuck buffer fuel cursor h ⟨i, hi1, hi2, hi3⟩] at hf
      simp at hf
    · intro hall
      exact ⟨buffer.length - cursor + 1, by
        rw [next_break_point_terminates buffer (buffer.length - cursor) cursor rfl h hall]
        rfl⟩
  · exact fun fuel r hr => next_break_point_some_eq_length buffer fuel cursor r hr

/-- C10 witness: a concrete all-syllable buffer from cursor 0. -/
theorem spec_c10_witness :
    ((∃ fuel, (next_break_point_fuel [⟨true⟩, ⟨true⟩] fuel 0).isSome) ↔
      (∀ i, 0 ≤ i → i < ([⟨true⟩, ⟨true⟩] : List BufSymbol).length →
        (([⟨true⟩, ⟨true⟩] : List BufSymbol).getD i ⟨false⟩).is_syllable = true)) ∧
    (∀ fuel r, next_break_point_fuel [⟨true⟩, ⟨true⟩] fuel 0 = some r →
      r = ([⟨true⟩, ⟨true⟩] : List BufSymbol).length) :=
  spec_c10_next_break_point [⟨true⟩, ⟨true⟩] 0 (by omega)

theorem phraseCmp_refl (a : Phrase) : phraseCmp a a = .eq := by
  unfold phraseCmp
  rw [cmpNat_eq_iff.mpr rfl]
  rcases a.last_used with _ | u
  · rfl
  · show cmpNat u u = .eq
    rw [cmpNat_eq_iff]

theorem phraseCmp_lt_trans {a b c : Phrase} :
    phraseCmp a b = .lt → phraseCmp b c = .lt → phraseCmp a c = .lt := by
  unfold phraseCmp
  rcases hab : cmpNat a.freq b.freq with _ | _ | _ <;>
    rcases hbc : cmpNat b.freq c.freq with _ | _ | _ <;>
      intro h1 h2 <;>
        first
        | exact Ordering.noConfusion h1
        | exact Ordering.noConfusion h2
        | skip
  · rw [show cmpNat a.freq c.freq = .lt from cmpNat_lt_iff.mpr (by
      have := cmpNat_lt_iff.mp hab; have := cmpNat_lt_iff.mp hbc; omega)]
  · rw [show cmpNat a.freq c.freq = .lt from cmpNat_lt_iff.mpr (by
      have := cmpNat_lt_iff.mp hab; have := cmpNat_eq_iff.mp hbc; omega)]
  · rw [show cmpNat a.freq c.freq = .lt from cmpNat_lt_iff.mpr (by
      have := cmpNat_eq_iff.mp hab; have := cmpNat_lt_iff.mp hbc; omega)]
  · rw [show cmpNat a.freq c.freq = .eq from cmpNat_eq_iff.mpr (by
      have := cmpNat_eq_iff.mp hab; have := cmpNat_eq_iff.mp hbc; omega)]
    rcases ha : a.last_used with _ | u <;> rcases hb : b.last_used with _ | v <;>
      rcases hc : c.last_used with _ | w <;>
        rw [ha, hb] at h1 <;> rw [hb, hc] at h2 <;>
        first
        | exact Ordering.noConfusion h1
        | exact Ordering.noConfusion h2
        | skip
    all_goals try rfl
    all_goals
      have h1w : cmpNat u v = .lt := h1
      have h2w : cmpNat v w = .lt := h2
      show cmpNat u w = .lt
      exact cmpNat_lt_iff.mpr (by
        have := cmpNat_lt_iff.mp h1w
        have := cmpNat_lt_iff.mp h2w
        omega)

theorem list_set_same {α : Type} : ∀ (l : List α) (n : Nat) (a : α),
    l.get? n = some a → l.set n a = l := by
  intro l
  induction l with
  | nil => intro n a h; cases h
  | cons x l ih =>
    intro n a h
    cases n with
    | zero => cases h; rfl
    | succ n =>
      show x :: l.set n a = x :: l
      rw [ih n a h]

theorem map_replace_eq_set {ps : List Phrase} {i : Nat} {old p : Phrase}
    (hnd : (ps.map (·.phrase)).Nodup) (hget : ps.get? i = some old)
    (htext : old.phrase = p.phrase) :
    ps.map (fun q => if q.phrase == p.phrase then phraseMax p q else q) =
      ps.set i (phraseMax p old) := by
  induction ps generalizing i with
  | nil => cases hget
  | cons h ps ih =>
    rw [List.map_cons] at hnd
    rw [List.nodup_cons] at hnd
    cases i with
    | zero =>
      cases hget
      rw [List.map_cons, if_pos (by rw [htext]; exact beq_self_eq_true _)]
      show _ :: _ = _ :: ps
      congr 1
      have hne : ∀ q ∈ ps, q.phrase ≠ p.phrase := by
        intro q hq he
        exact hnd.1 (List.mem_map.mpr ⟨q, hq, he.trans htext.symm⟩)
      rw [List.map_congr_left (fun q hq => if_neg (by
        rw [beq_iff_eq]; exact hne q hq))]
      exact List.map_id ps
    | succ i =>
      have hold : old ∈ ps := List.get?_mem hget
      rw [List.map_cons, if_neg (by
        rw [beq_iff_eq]
        intro he
        exact hnd.1 (List.mem_map.mpr ⟨old, hold, htext.trans he.symm⟩))]
      show _ :: _ = _ :: ps.set i (phraseMax p old)
      congr 1
      exact ih hnd.2 hget

theorem phraseMax_phrase {p old : Phrase} (h : old.phrase = p.phrase) :
    (phraseMax p old).phrase = p.phrase := by
  unfold phraseMax
  split
  · rfl
  · exact h

theorem sortMapInv_nil : SortMapInv ⟨[], []⟩ := by
  refine ⟨?_, ?_, ?_⟩
  · intro t i h; cases h
  · intro i q h; cases i <;> cases h
  · exact List.nodup_nil

theorem lookupStep_spec {st : LookupState} {p : Phrase} (hinv : SortMapInv st) :
    (lookupStep st p).phrases = dedupStep st.phrases p ∧ SortMapInv (lookupStep st p) := by
  obtain ⟨hmap, hcomp, hnd⟩ := hinv
  rcases hf : st.sort_map.find? (fun e => e.1 == p.phrase) with _ | e
  · have hnone : ∀ q ∈ st.phrases, q.phrase ≠ p.phrase := by
      intro q hq he
      obtain ⟨i, hi⟩ := List.get?_of_mem hq
      have hm := hcomp i q hi
      have hne := List.find?_eq_none.mp hf _ hm
      rw [he] at hne
      exact hne (beq_self_eq_true _)
    have hany : st.phrases.any (fun q => q.phrase == p.phrase) = false := by
      rw [List.any_eq_false]
      intro q hq hbe
      exact hnone q hq (by rwa [beq_iff_eq] at hbe)
    have hstep : lookupStep st p =
        ⟨st.sort_map ++ [(p.phrase, st.phrases.length)], st.phrases ++ [p]⟩ := by
      unfold lookupStep
      rw [hf]
      rfl
    rw [hstep]
    constructor
    · show st.phrases ++ [p] = dedupStep st.phrases p
      unfold dedupStep
      rw [hany]
      rfl
    · refine ⟨?_, ?_, ?_⟩
      · intro t i hti
        rcases List.mem_append.mp hti with hl | hr
        · obtain ⟨q, hq, hqt⟩ := hmap t i hl
          have hlt : i < st.phrases.length := by
            rcases List.get?_eq_some.mp hq with ⟨h, _⟩
            exact h
          exact ⟨q, by rw [List.get?_append hlt]; exact hq, hqt⟩
        · rw [List.mem_singleton, Prod.mk.injEq] at hr
          obtain ⟨ht, hi⟩ := hr
          subst ht
          subst hi
          exact ⟨p, List.get?_concat_length _ _, rfl⟩
      · intro i q hq
        by_cases hi : i < st.phrases.length
        · rw [List.get?_append hi] at hq
          exact List.mem_append_left _ (hcomp i q hq)
        · rw [List.get?_append_right (by omega)] at hq
          rcases hd : i - st.phrases.length with _ | j
          · rw [hd] at hq
            cases hq
            have : i = st.phrases.length := by omega
            rw [this]
            exact List.mem_append_right _ (List.mem_singleton.mpr rfl)
          · rw [hd] at hq
            cases j <;> cases hq
      · rw [List.map_append]
        rw [List.nodup_append]
        refine ⟨hnd, List.nodup_singleton _, ?_⟩
        intro a ha hb
        simp only [List.map_cons, List.map_nil, List.mem_singleton] at hb
        obtain ⟨q, hq, hqt⟩ := List.mem_map.mp ha
        exact hnone q hq (by rw [hqt, hb])
  · have hpe : e.1 = p.phrase := by
      have := List.find?_some hf
      rwa [beq_iff_eq] at this
    have hmem : (e.1, e.2) ∈ st.sort_map := by
      rw [Prod.mk.eta]
      exact List.mem_of_find?_eq_some hf
    obtain ⟨old, hold, holdt⟩ := hmap e.1 e.2 hmem
    have holdp : old.phrase = p.phrase := holdt.trans hpe
    have hgetD : st.phrases.getD e.2 default = old := by
      rw [List.getD_eq_get?, hold]
      rfl
    have hstep : lookupStep st p =
        ⟨st.sort_map, st.phrases.set e.2 (phraseMax p old)⟩ := by
      unfold lookupStep
      rw [hf]
      show LookupState.mk st.sort_map
        (st.phrases.set e.2 (phraseMax p (st.phrases.getD e.2 default))) = _
      rw [hgetD]
    rw [hstep]
    have hmaxt : (phraseMax p old).phrase = p.phrase := phraseMax_phrase holdp
    constructor
    · show st.phrases.set e.2 (phraseMax p old) = dedupStep st.phrases p
      unfold dedupStep
      have hany : st.phrases.any (fun q => q.phrase == p.phrase) = true := by
        rw [List.any_eq_true]
        exact ⟨old, List.get?_mem hold, by rw [beq_iff_eq]; exact holdp⟩
      rw [hany]
      show _ = st.phrases.map (fun q => if q.phrase == p.phrase then phraseMax p q else q)
      rw [map_replace_eq_set hnd hold holdp]
    · refine ⟨?_, ?_, ?_⟩
      · intro t i hti
        dsimp only at hti ⊢
        by_cases hi : i = e.2
        · subst hi
          obtain ⟨q0, hq0, hq0t⟩ := hmap t e.2 hti
          rw [hold] at hq0
          cases hq0
          refine ⟨phraseMax p old, ?_, by rw [hmaxt, ← holdp, hq0t]⟩
          rw [List.get?_set_eq, hold]
          rfl
        · obtain ⟨q0, hq0, hq0t⟩ := hmap t i hti
          exact ⟨q0, by rw [List.get?_set_ne _ _ (fun he => hi he.symm), hq0], hq0t⟩
      · intro i q hq
        dsimp only at hq ⊢
        by_cases hi : i = e.2
        · subst hi
          rw [List.get?_set_eq, hold] at hq
          cases hq
          rw [hmaxt, ← hpe]
          exact hmem
        · rw [List.get?_set_ne _ _ (fun he => hi he.symm)] at hq
          exact hcomp i q hq
      · dsimp only
        rw [List.map_set]
        rw [show (phraseMax p old).phrase = old.phrase from hmaxt.trans holdp.symm]
        rw [list_set_same]
        · exact hnd
        · rw [List.get?_map, hold]
          rfl

theorem lookupFold_spec {st : LookupState} (hinv : SortMapInv st) :
    ∀ s : List Phrase, (s.foldl lookupStep st).phrases = s.foldl dedupStep st.phrases ∧
      SortMapInv (s.foldl lookupStep st) := by
  intro s
  induction s generalizing st with
  | nil => exact ⟨rfl, hinv⟩
  | cons p s ih =>
    obtain ⟨hph, hinv'⟩ := lookupStep_spec (p := p) hinv
    obtain ⟨ih1, ih2⟩ := ih hinv'
    refine ⟨?_, ih2⟩
    show ((s.foldl lookupStep (lookupStep st p))).phrases = _
    rw [ih1, hph]
    rfl

theorem dedupStep_texts (acc : List Phrase) (p : Phrase) :
    (dedupStep acc p).map (·.phrase) = firstSeenStep (acc.map (·.phrase)) p.phrase := by
  unfold dedupStep firstSeenStep
  by_cases hany : acc.any (fun q => q.phrase == p.phrase) = true
  · rw [if_pos hany]
    have hmem : p.phrase ∈ acc.map (·.phrase) := by
      obtain ⟨q, hq, hbe⟩ := List.any_eq_true.mp hany
      rw [beq_iff_eq] at hbe
      exact List.mem_map.mpr ⟨q, hq, hbe⟩
    rw [if_pos hmem, List.map_map]
    apply List.map_congr_left
    intro q hq
    show (if q.phrase == p.phrase then phraseMax p q else q).phrase = q.phrase
    by_cases hb : (q.phrase == p.phrase) = true
    · rw [if_pos hb]
      rw [beq_iff_eq] at hb
      exact (phraseMax_phrase hb).trans hb.symm
    · rw [if_neg hb]
  · rw [Bool.not_eq_true] at hany
    rw [if_neg (by rw [hany]; exact Bool.false_ne_true)]
    have hmem : p.phrase ∉ acc.map (·.phrase) := by
      intro hm
      obtain ⟨q, hq, hqt⟩ := List.mem_map.mp hm
      exact (List.any_eq_false.mp hany q hq) (by rw [beq_iff_eq]; exact hqt)
    rw [if_neg hmem, List.map_append]
    rfl

theorem dedupFold_texts (s : List Phrase) : ∀ (acc : List Phrase),
    ((s.foldl dedupStep acc).map (·.phrase)) =
      (s.map (·.phrase)).foldl firstSeenStep (acc.map (·.phrase)) := by
  induction s with
  | nil => intro acc; rfl
  | cons p s ih =>
    intro acc
    show ((s.foldl dedupStep (dedupStep acc p)).map (·.phrase)) = _
    rw [ih, dedupStep_texts]
    rfl

theorem firstSeen_mem (ts : List (List Nat)) :
    ∀ acc t, (t ∈ ts.foldl firstSeenStep acc ↔ t ∈ acc ∨ t ∈ ts) := by
  induction ts with
  | nil => intro acc t; simp
  | cons u ts ih =>
    intro acc t
    show t ∈ ts.foldl firstSeenStep (firstSeenStep acc u) ↔ _
    rw [ih]
    unfold firstSeenStep
    by_cases hm : u ∈ acc
    · rw [if_pos hm]
      constructor
      · rintro (h | h)
        · exact Or.inl h
        · exact Or.inr (List.mem_cons_of_mem _ h)
      · rintro (h | h)
        · exact Or.inl h
        · rcases List.mem_cons.mp h with h | h
          · exact Or.inl (h ▸ hm)
          · exact Or.inr h
    · rw [if_neg hm]
      constructor
      · rintro (h | h)
        · rcases List.mem_append.mp h with h | h
          · exact Or.inl h
          · rw [List.mem_singleton] at h
            exact Or.inr (h ▸ List.mem_cons_self u ts)
        · exact Or.inr (List.mem_cons_of_mem _ h)
      · rintro (h | h)
        · exact Or.inl (List.mem_append_left _ h)
        · rcases List.mem_cons.mp h with h | h
          · exact Or.inl (List.mem_append_right _ (by rw [List.mem_singleton, h]))
          · exact Or.inr h

theorem firstSeen_length (ts : List (List Nat)) :
    ∀ acc, (ts.foldl firstSeenStep acc).length ≤ acc.length + ts.length := by
  induction ts with
  | nil => intro acc; simp
  | cons u ts ih =>
    intro acc
    show (ts.foldl firstSeenStep (firstSeenStep acc u)).length ≤ _
    have h1 := ih (firstSeenStep acc u)
    have h2 : (firstSeenStep acc u).length ≤ acc.length + 1 := by
      unfold firstSeenStep
      split
      · omega
      · rw [List.length_append]
        simp
    rw [List.length_cons]
    omega

theorem firstSeen_nodup (ts : List (List Nat)) :
    ∀ acc, acc.Nodup → (ts.foldl firstSeenStep acc).Nodup := by
  induction ts with
  | nil => intro acc h; exact h
  | cons u ts ih =>
    intro acc h
    apply ih
    unfold firstSeenStep
    split
    · exact h
    · rename_i hm
      rw [List.nodup_append]
      refine ⟨h, List.nodup_singleton _, ?_⟩
      intro a ha hb
      rw [List.mem_singleton] at hb
      exact hm (hb ▸ ha)

theorem dedup_dom : ∀ (s acc u : List Phrase),
    (∀ a ∈ acc, Dom u a) → (∀ q ∈ u, ∃ a ∈ acc, a.phrase = q.phrase) →
    ∀ r ∈ s.foldl dedupStep acc, Dom (u ++ s) r := by
  intro s
  induction s with
  | nil =>
    intro acc u h1 h2 r hr
    rw [List.append_nil]
    exact h1 r hr
  | cons p s ih =>
    intro acc u h1 h2 r hr
    have key1 : ∀ a ∈ dedupStep acc p, Dom (u ++ [p]) a := by
      unfold dedupStep
      by_cases hany : acc.any (fun q => q.phrase == p.phrase) = true
      · rw [if_pos hany]
        intro a ha
        obtain ⟨q, hq, hfq⟩ := List.mem_map.mp ha
        by_cases hb : (q.phrase == p.phrase) = true
        · rw [if_pos hb] at hfq
          rw [beq_iff_eq] at hb
          obtain ⟨hqu, hqd⟩ := h1 q hq
          subst hfq
          unfold phraseMax
          split
          · rename_i hlt
            refine ⟨List.mem_append_right _ (List.mem_singleton.mpr rfl), ?_⟩
            intro q2 hq2 hq2t hcon
            rcases List.mem_append.mp hq2 with hq2u | hq2p
            · have hd := hqd q2 hq2u (by rw [hq2t, hb])
              exact hd (phraseCmp_lt_trans hlt hcon)
            · rw [List.mem_singleton] at hq2p
              subst hq2p
              rw [phraseCmp_refl] at hcon
              exact Ordering.noConfusion hcon
          · rename_i hnlt
            refine ⟨List.mem_append_left _ hqu, ?_⟩
            intro q2 hq2 hq2t
            rcases List.mem_append.mp hq2 with hq2u | hq2p
            · exact hqd q2 hq2u hq2t
            · rw [List.mem_singleton] at hq2p
              subst hq2p
              exact hnlt
        · rw [if_neg hb] at hfq
          subst hfq
          obtain ⟨hqu, hqd⟩ := h1 q hq
          refine ⟨List.mem_append_left _ hqu, ?_⟩
          intro q2 hq2 hq2t
          rcases List.mem_append.mp hq2 with hq2u | hq2p
          · exact hqd q2 hq2u hq2t
          · rw [List.mem_singleton] at hq2p
            subst hq2p
            exfalso
            exact hb (by rw [beq_iff_eq]; exact hq2t.symm)
      · rw [Bool.not_eq_true] at hany
        rw [if_neg (by rw [hany]; exact Bool.false_ne_true)]
        intro a ha
        rcases List.mem_append.mp ha with hacc | hap
        · obtain ⟨hqu, hqd⟩ := h1 a hacc
          refine ⟨List.mem_append_left _ hqu, ?_⟩
          intro q2 hq2 hq2t
          rcases List.mem_append.mp hq2 with hq2u | hq2p
          · exact hqd q2 hq2u hq2t
          · rw [List.mem_singleton] at hq2p
            subst hq2p
            exfalso
            exact (List.any_eq_false.mp hany a hacc)
              (by rw [beq_iff_eq]; exact hq2t.symm)
        · rw [List.mem_singleton] at hap
          subst hap
          refine ⟨List.mem_append_right _ (List.mem_singleton.mpr rfl), ?_⟩
          intro q2 hq2 hq2t hcon
          rcases List.mem_append.mp hq2 with hq2u | hq2p
          · obtain ⟨a2, ha2, ha2t⟩ := h2 q2 hq2u
            exact (List.any_eq_false.mp hany a2 ha2)
              (by rw [beq_iff_eq, ha2t, hq2t])
          · rw [List.mem_singleton] at hq2p
            subst hq2p
            rw [phraseCmp_refl] at hcon
            exact Ordering.noConfusion hcon
    have key2 : ∀ q ∈ u ++ [p], ∃ a ∈ dedupStep acc p, a.phrase = q.phrase := by
      unfold dedupStep
      by_cases hany : acc.any (fun q => q.phrase == p.phrase) = true
      · rw [if_pos hany]
        intro q2 hq2
        rcases List.mem_append.mp hq2 with hq2u | hq2p
        · obtain ⟨a, ha, hat⟩ := h2 q2 hq2u
          refine ⟨(if a.phrase == p.phrase then phraseMax p a else a),
            List.mem_map_of_mem _ ha, ?_⟩
          by_cases hb : (a.phrase == p.phrase) = true
          · rw [if_pos hb]
            rw [beq_iff_eq] at hb
            rw [phraseMax_phrase hb, ← hb, hat]
          · rw [if_neg hb, hat]
        · rw [List.mem_singleton] at hq2p
          rw [hq2p]
          obtain ⟨q, hq, hbe⟩ := List.any_eq_true.mp hany
          refine ⟨(if q.phrase == p.phrase then phraseMax p q else q),
            List.mem_map_of_mem _ hq, ?_⟩
          rw [if_pos hbe]
          exact phraseMax_phrase (beq_iff_eq.mp hbe)
      · rw [Bool.not_eq_true] at hany
        rw [if_neg (by rw [hany]; exact Bool.false_ne_true)]
        intro q2 hq2
        rcases List.mem_append.mp hq2 with hq2u | hq2p
        · obtain ⟨a, ha, hat⟩ := h2 q2 hq2u
          exact ⟨a, List.mem_append_left _ ha, hat⟩
        · rw [List.mem_singleton] at hq2p
          rw [hq2p]
          exact ⟨p, List.mem_append_right _ (List.mem_singleton.mpr rfl), rfl⟩
    have hmain := ih (dedupStep acc p) (u ++ [p]) key1 key2 r hr
    rwa [List.append_assoc, List.singleton_append] at hmain

theorem filter_unique_of_nodup {l : List Phrase} {t : List Nat}
    (hnd : (l.map (·.phrase)).Nodup) (ht : t ∈ l.map (·.phrase)) :
    ∃ e, l.filter (fun q => decide (q.phrase = t)) = [e] ∧ e ∈ l ∧ e.phrase = t := by
  induction l with
  | nil => cases ht
  | cons q l ih =>
    rw [List.map_cons, List.nodup_cons] at hnd
    rw [List.map_cons] at ht
    by_cases hq : q.phrase = t
    · have htail : l.filter (fun q2 => decide (q2.phrase = t)) = [] := by
        rw [List.filter_eq_nil]
        intro a ha hd
        rw [decide_eq_true_eq] at hd
        exact hnd.1 (List.mem_map.mpr ⟨a, ha, hd.trans hq.symm⟩)
      refine ⟨q, ?_, List.mem_cons_self _ _, hq⟩
      rw [List.filter_cons, if_pos (by rw [decide_eq_true_eq]; exact hq), htail]
    · rcases List.mem_cons.mp ht with he | he
      · exact absurd he.symm hq
      · obtain ⟨e, hfe, hel, het⟩ := ih hnd.2 he
        refine ⟨e, ?_, List.mem_cons_of_mem _ hel, het⟩
        rw [List.filter_cons, if_neg (by rw [decide_eq_true_eq]; exact hq), hfe]

theorem suppress_entries_for {d : KVDictionary} {k t : List Nat}
    (h : (k, t) ∈ d.graveyard) : ∀ p ∈ entries_iter_for d k, p.phrase ≠ t := by
  intro p hp he
  unfold entries_iter_for at hp
  rw [List.mem_filter] at hp
  exact (of_decide_eq_true hp.2) (by rw [he]; exact h)

theorem lookup_sub_entries {d : KVDictionary} {k : List Nat} {n : Nat} :
    ∀ p ∈ lookup_first_n_phrases d k n, p ∈ entries_iter_for d k := by
  intro p hp
  unfold lookup_first_n_phrases at hp
  have hp2 := List.mem_of_mem_take hp
  rw [(lookupFold_spec sortMapInv_nil (entries_iter_for d k)).1] at hp2
  have hdom := dedup_dom (entries_iter_for d k) [] []
    (fun a ha => absurd ha (List.not_mem_nil a))
    (fun q hq => absurd hq (List.not_mem_nil q)) p hp2
  rw [List.nil_append] at hdom
  exact hdom.1

theorem suppress_lookup {d : KVDictionary} {k t : List Nat} (h : (k, t) ∈ d.graveyard) :
    ∀ n, ∀ p ∈ lookup_first_n_phrases d k n, p.phrase ≠ t :=
  fun _ p hp => suppress_entries_for h p (lookup_sub_entries p hp)

theorem suppress_entries_iter {d : KVDictionary} {k t : List Nat}
    (h : (k, t) ∈ d.graveyard) : ∀ e ∈ entries_iter d, e.1 = k → e.2.phrase ≠ t := by
  intro e he hek het
  unfold entries_iter at he
  rw [List.mem_filter] at he
  exact (of_decide_eq_true he.2) (by rw [hek, het]; exact h)

/-- C1: a tombstoned phrase key is invisible to every query — the exact-key
stream `entries_iter_for`, the first-N lookup, and the full merged iteration
`entries_iter` (`entries()` is `entries_iter` with the key bytes decoded
back into syllables, the phrase unchanged) — whatever the backing store and
overlay contain. -/
theorem spec_c1_tombstone_suppression (d : KVDictionary) (k t : List Nat)
    (h : (k, t) ∈ d.graveyard) :
    (∀ p ∈ entries_iter_for d k, p.phrase ≠ t) ∧
    (∀ n, ∀ p ∈ lookup_first_n_phrases d k n, p.phrase ≠ t) ∧
    (∀ e ∈ entries_iter d, e.1 = k → e.2.phrase ≠ t) :=
  ⟨suppress_entries_for h, suppress_lookup h, suppress_entries_iter h⟩

/-- C1 witness: a backing store holding a valid record for text `"a"` under
a tombstoned key; no query returns it. -/
theorem spec_c1_witness :
    (∀ p ∈ entries_iter_for
      ⟨some [([2, 0], [1, 0, 0, 0, 2, 0, 0, 0, 0, 0, 0, 0, 1, 97])], [],
        [([2, 0], [97])]⟩ [2, 0], p.phrase ≠ [97]) ∧
    (∀ n, ∀ p ∈ lookup_first_n_phrases
      ⟨some [([2, 0], [1, 0, 0, 0, 2, 0, 0, 0, 0, 0, 0, 0, 1, 97])], [],
        [([2, 0], [97])]⟩ [2, 0] n, p.phrase ≠ [97]) ∧
    (∀ e ∈ entries_iter
      ⟨some [([2, 0], [1, 0, 0, 0, 2, 0, 0, 0, 0, 0, 0, 0, 1, 97])], [],
        [([2, 0], [97])]⟩, e.1 = [2, 0] → e.2.phrase ≠ [97]) :=
  spec_c1_tombstone_suppression _ _ _ (by decide)

/-- C7: `lookup_first_n_phrases` equals the text-deduplicated stream
truncated to `n`; the output texts are the stream texts in first-seen order;
no text repeats; at most `n` entries are returned; and every surviving
entry came from the stream and is maximal under `(frequency, last-used)`
among the stream entries of its text. -/
theorem spec_c7_lookup_dedup (d : KVDictionary) (k : List Nat) (n : Nat) :
    lookup_first_n_phrases d k n = (dedupPhrases (entries_iter_for d k)).take n ∧
    (dedupPhrases (entries_iter_for d k)).map (·.phrase) =
      ((entries_iter_for d k).map (·.phrase)).foldl firstSeenStep [] ∧
    ((lookup_first_n_phrases d k n).map (·.phrase)).Nodup ∧
    (lookup_first_n_phrases d k n).length ≤ n ∧
    (∀ p ∈ dedupPhrases (entries_iter_for d k), p ∈ entries_iter_for d k ∧
      ∀ q ∈ entries_iter_for d k, q.phrase = p.phrase → phraseCmp p q ≠ .lt) := by
  have hfold := lookupFold_spec sortMapInv_nil (entries_iter_for d k)
  have heq : lookup_first_n_phrases d k n =
      (dedupPhrases (entries_iter_for d k)).take n := by
    unfold lookup_first_n_phrases dedupPhrases
    rw [hfold.1]
  have hnd : ((dedupPhrases (entries_iter_for d k)).map (·.phrase)).Nodup := by
    unfold dedupPhrases
    rw [dedupFold_texts _ []]
    exact firstSeen_nodup _ [] List.nodup_nil
  refine ⟨heq, ?_, ?_, ?_, ?_⟩
  · unfold dedupPhrases
    exact dedupFold_texts _ []
  · rw [heq]
    exact hnd.sublist (List.Sublist.map (fun x => x.phrase)
      (List.take_sublist n (dedupPhrases (entries_iter_for d k))))
  · rw [heq]
    exact List.length_take_le n _
  · intro p hp
    have hdom := dedup_dom (entries_iter_for d k) [] []
      (fun a ha => absurd ha (List.not_mem_nil a))
      (fun q hq => absurd hq (List.not_mem_nil q)) p hp
    rw [List.nil_append] at hdom
    exact hdom

/-- C8: after `remove_phrase` the tombstone stays through a later
`add_phrase` for the exact same key (which therefore succeeds and only
touches the overlay), so the just-added phrase is invisible to every
subsequent query. -/
theorem spec_c8_tombstone_persists (d : KVDictionary) (k : List Nat) (p : Phrase) :
    ∃ d2, add_phrase (remove_phrase d k p.phrase) k p = .ok d2 ∧
      (k, p.phrase) ∈ d2.graveyard ∧
      (∀ q ∈ entries_iter_for d2 k, q.phrase ≠ p.phrase) ∧
      (∀ n, ∀ q ∈ lookup_first_n_phrases d2 k n, q.phrase ≠ p.phrase) ∧
      (∀ e ∈ entries_iter d2, e.1 = k → e.2.phrase ≠ p.phrase) := by
  have hg1 : (k, p.phrase) ∈ (remove_phrase d k p.phrase).graveyard := by
    unfold remove_phrase graveyardInsert
    dsimp only
    split
    · assumption
    · exact List.mem_append_right _ (List.mem_singleton.mpr rfl)
  have hany : (entries_iter_for (remove_phrase d k p.phrase) k).any
      (fun ph => ph.phrase == p.phrase) = false := by
    rw [List.any_eq_false]
    intro q hq hbe
    exact suppress_entries_for hg1 q hq (beq_iff_eq.mp hbe)
  refine ⟨{ remove_phrase d k p.phrase with
      btree := btreeInsert (k, p.phrase) (p.freq, p.last_used.getD 0)
        (remove_phrase d k p.phrase).btree }, ?_, hg1, ?_, ?_, ?_⟩
  · unfold add_phrase
    rw [hany, if_neg Bool.false_ne_true]
  · exact suppress_entries_for hg1
  · exact suppress_lookup hg1
  · exact suppress_entries_iter hg1

theorem cmpList_nil_not_gt (x : List Nat) : cmpList [] x ≠ .gt := by
  cases x <;> simp [cmpList]

theorem inRange_iff {k : List Nat} {x : List Nat × List Nat} :
    inRange k x = true ↔ (x.1 = k ∧ cmpList x.2 MAX_PHRASE = .lt) := by
  obtain ⟨x1, x2⟩ := x
  unfold inRange
  rw [Bool.and_eq_true, decide_eq_true_eq, decide_eq_true_eq]
  show (¬ (match cmpList k x1 with
      | .eq => cmpList [] x2
      | o => o) = .gt) ∧
    (match cmpList x1 k with
      | .eq => cmpList x2 MAX_PHRASE
      | o => o) = .lt ↔ _
  rcases hc : cmpList k x1 with _ | _ | _
  · have hg : cmpList x1 k = .gt := cmpList_gt_iff.mpr hc
    rw [hg]
    constructor
    · rintro ⟨_, h2⟩
      exact absurd h2 (by simp)
    · rintro ⟨h1, _⟩
      have h1b : x1 = k := h1
      rw [h1b, cmpList_refl] at hc
      exact Ordering.noConfusion hc
  · have he : k = x1 := cmpList_eq_iff.mp hc
    subst he
    rw [cmpList_refl]
    constructor
    · rintro ⟨_, h2⟩
      exact ⟨rfl, h2⟩
    · rintro ⟨_, h2⟩
      exact ⟨cmpList_nil_not_gt x2, h2⟩
  · have hl : cmpList x1 k = .lt := cmpList_gt_iff.mp hc
    rw [hl]
    constructor
    · rintro ⟨h1, _⟩
      exact absurd rfl h1
    · rintro ⟨h1, _⟩
      have h1b : x1 = k := h1
      rw [h1b, cmpList_refl] at hc
      exact Ordering.noConfusion hc

theorem entries_for_text_iff {d : KVDictionary} {k t : List Nat} :
    (∃ q ∈ entries_iter_for d k, q.phrase = t) ↔
      ((k, t) ∉ d.graveyard ∧
        ((∃ q ∈ store_entries_for d k, q.phrase = t) ∨
         (∃ v, ((k, t), v) ∈ d.btree ∧ cmpList t MAX_PHRASE = .lt))) := by
  unfold entries_iter_for
  constructor
  · rintro ⟨q, hq, hqt⟩
    rw [List.mem_filter] at hq
    have hg := of_decide_eq_true hq.2
    rw [hqt] at hg
    refine ⟨hg, ?_⟩
    rcases List.mem_append.mp hq.1 with hs | hb
    · exact Or.inl ⟨q, hs, hqt⟩
    · obtain ⟨e, he, hbe⟩ := List.mem_map.mp hb
      obtain ⟨⟨e1, e2⟩, ev⟩ := e
      unfold btreeRange at he
      rw [List.mem_filter] at he
      have hr := inRange_iff.mp he.2
      have h1 : e1 = k := hr.1
      have h2 : e2 = t := by
        rw [← hqt, ← hbe]
        rfl
      subst h1
      subst h2
      exact Or.inr ⟨ev, he.1, hr.2⟩
  · rintro ⟨hg, hs | hb⟩
    · obtain ⟨q, hq, hqt⟩ := hs
      refine ⟨q, ?_, hqt⟩
      rw [List.mem_filter]
      refine ⟨List.mem_append_left _ hq, ?_⟩
      rw [decide_eq_true_eq, hqt]
      exact hg
    · obtain ⟨v, hv, hlt⟩ := hb
      refine ⟨btreePhrase ((k, t), v), ?_, rfl⟩
      rw [List.mem_filter]
      constructor
      · apply List.mem_append_right
        apply List.mem_map_of_mem
        unfold btreeRange
        rw [List.mem_filter]
        exact ⟨hv, inRange_iff.mpr ⟨rfl, hlt⟩⟩
      · rw [decide_eq_true_eq]
        exact hg

/-- C4 (amended): `add_phrase` errors iff a non-tombstoned entry of the same
key and text is visible to `entries_iter_for` — a decoded backing-store
value for that key, or an overlay entry whose text is lexicographically
below `"\u{10FFFF}"` (the range scan's exclusive upper bound hides overlay
texts at or above it); otherwise it returns `Ok` and inserts the key into
the overlay with the phrase's frequency and its last-used value, defaulting
to zero. -/
theorem spec_c4_add_phrase (d : KVDictionary) (k : List Nat) (p : Phrase) :
    (add_phrase d k p = .error .mk ↔
      ((k, p.phrase) ∉ d.graveyard ∧
        ((∃ q ∈ store_entries_for d k, q.phrase = p.phrase) ∨
         (∃ v, ((k, p.phrase), v) ∈ d.btree ∧ cmpList p.phrase MAX_PHRASE = .lt)))) ∧
    (∀ d2, add_phrase d k p = .ok d2 →
      d2 = { d with
        btree := btreeInsert (k, p.phrase) (p.freq, p.last_used.getD 0) d.btree }) := by
  constructor
  · have h1 : add_phrase d k p = Except.error DictionaryUpdateError.mk ↔
        (entries_iter_for d k).any (fun ph => ph.phrase == p.phrase) = true := by
      unfold add_phrase
      by_cases hany : (entries_iter_for d k).any (fun ph => ph.phrase == p.phrase) = true
      · rw [hany, if_pos rfl]
        exact ⟨fun _ => rfl, fun _ => rfl⟩
      · rw [Bool.not_eq_true] at hany
        rw [hany, if_neg Bool.false_ne_true]
        constructor
        · intro hc
          exact Except.noConfusion hc
        · intro hc
          exact Bool.noConfusion hc
    rw [h1, List.any_eq_true]
    have h2 : (∃ x ∈ entries_iter_for d k, (x.phrase == p.phrase) = true) ↔
        (∃ q ∈ entries_iter_for d k, q.phrase = p.phrase) := by
      constructor
      · rintro ⟨q, hq, hbe⟩
        exact ⟨q, hq, beq_iff_eq.mp hbe⟩
      · rintro ⟨q, hq, he⟩
        exact ⟨q, hq, beq_iff_eq.mpr he⟩
    rw [h2, entries_for_text_iff]
  · intro d2 h
    unfold add_phrase at h
    split at h
    · exact Except.noConfusion h
    · injection h with h2
      exact h2.symm

/-- C4 counterexample: an overlay entry with text `"\u{10FFFF}"` (the range
scan's exclusive upper bound) is a non-tombstoned entry of the same key and
text, yet re-adding it succeeds instead of failing with DuplicatePhrase. -/
theorem spec_c4_counterexample :
    ((([2, 0], MAX_PHRASE), (1, 0)) ∈
      (⟨none, [(([2, 0], MAX_PHRASE), (1, 0))], []⟩ : KVDictionary).btree) ∧
    (([2, 0], MAX_PHRASE) ∉
      (⟨none, [(([2, 0], MAX_PHRASE), (1, 0))], []⟩ : KVDictionary).graveyard) ∧
    add_phrase ⟨none, [(([2, 0], MAX_PHRASE), (1, 0))], []⟩ [2, 0]
        ⟨MAX_PHRASE, 1, some 5⟩ =
      .ok ⟨none, [(([2, 0], MAX_PHRASE), (1, 5))], []⟩ :=
  ⟨by decide, by decide, by rfl⟩

theorem mergeDedup_nil_left (ys : List (List Nat × Phrase)) : mergeDedup [] ys = ys := by
  simp [mergeDedup]

theorem mergeDedup_nil_right (x : List Nat × Phrase) (xs : List (List Nat × Phrase)) :
    mergeDedup (x :: xs) [] = x :: xs := by
  simp [mergeDedup]

theorem mergeDedup_mem_aux : ∀ (n : Nat) (xs ys : List (List Nat × Phrase)),
    xs.length + ys.length ≤ n → ∀ z ∈ mergeDedup xs ys, z ∈ xs ∨ z ∈ ys := by
  intro n
  induction n with
  | zero =>
    intro xs ys hlen z hz
    rcases xs with _ | ⟨x, xs⟩
    · rw [mergeDedup_nil_left] at hz
      exact Or.inr hz
    · rw [List.length_cons] at hlen
      omega
  | succ n ih =>
    intro xs ys hlen z hz
    rcases xs with _ | ⟨x, xs⟩
    · rw [mergeDedup_nil_left] at hz
      exact Or.inr hz
    · rcases ys with _ | ⟨y, ys⟩
      · rw [mergeDedup_nil_right] at hz
        exact Or.inl hz
      · rw [List.length_cons, List.length_cons] at hlen
        simp only [mergeDedup] at hz
        rcases hc : cmpKey (ekey x) (ekey y) with _ | _ | _ <;> rw [hc] at hz
        · have hz2 : z ∈ x :: mergeDedup xs (y :: ys) := hz
          rcases List.mem_cons.mp hz2 with h | h
          · exact Or.inl (h ▸ List.mem_cons_self x xs)
          · rcases ih xs (y :: ys) (by rw [List.length_cons]; omega) z h with h2 | h2
            · exact Or.inl (List.mem_cons_of_mem _ h2)
            · exact Or.inr h2
        · have hz2 : z ∈ (if x.2.freq ≤ y.2.freq then y :: mergeDedup xs ys
              else x :: mergeDedup xs ys) := hz
          split at hz2
          · rcases List.mem_cons.mp hz2 with h | h
            · exact Or.inr (h ▸ List.mem_cons_self y ys)
            · rcases ih xs ys (by omega) z h with h2 | h2
              · exact Or.inl (List.mem_cons_of_mem _ h2)
              · exact Or.inr (List.mem_cons_of_mem _ h2)
          · rcases List.mem_cons.mp hz2 with h | h
            · exact Or.inl (h ▸ List.mem_cons_self x xs)
            · rcases ih xs ys (by omega) z h with h2 | h2
              · exact Or.inl (List.mem_cons_of_mem _ h2)
              · exact Or.inr (List.mem_cons_of_mem _ h2)
        · have hz2 : z ∈ y :: mergeDedup (x :: xs) ys := hz
          rcases List.mem_cons.mp hz2 with h | h
          · exact Or.inr (h ▸ List.mem_cons_self y ys)
          · rcases ih (x :: xs) ys (by rw [List.length_cons]; omega) z h with h2 | h2
            · exact Or.inl h2
            · exact Or.inr (List.mem_cons_of_mem _ h2)

theorem mergeDedup_mem {xs ys : List (List Nat × Phrase)} {z : List Nat × Phrase}
    (hz : z ∈ mergeDedup xs ys) : z ∈ xs ∨ z ∈ ys :=
  mergeDedup_mem_aux (xs.length + ys.length) xs ys le_rfl z hz

theorem mergeDedup_sorted_aux : ∀ (n : Nat) (xs ys : List (List Nat × Phrase)),
    xs.length + ys.length ≤ n →
    (xs.map ekey).Pairwise keyLt → (ys.map ekey).Pairwise keyLt →
    ((mergeDedup xs ys).map ekey).Pairwise keyLt := by
  intro n
  induction n with
  | zero =>
    intro xs ys hlen hx hy
    rcases xs with _ | ⟨x, xs⟩
    · rw [mergeDedup_nil_left]
      exact hy
    · rw [List.length_cons] at hlen
      omega
  | succ n ih =>
    intro xs ys hlen hx hy
    rcases xs with _ | ⟨x, xs⟩
    · rw [mergeDedup_nil_left]
      exact hy
    · rcases ys with _ | ⟨y, ys⟩
      · rw [mergeDedup_nil_right]
        exact hx
      · rw [List.length_cons, List.length_cons] at hlen
        rw [List.map_cons, List.pairwise_cons] at hx hy
        simp only [mergeDedup]
        rcases hc : cmpKey (ekey x) (ekey y) with _ | _ | _
        · show ((x :: mergeDedup xs (y :: ys)).map ekey).Pairwise keyLt
          rw [List.map_cons, List.pairwise_cons]
          constructor
          · intro b hb
            obtain ⟨z, hz, hbz⟩ := List.mem_map.mp hb
            subst hbz
            rcases mergeDedup_mem hz with h | h
            · exact hx.1 _ (List.mem_map_of_mem _ h)
            · rcases List.mem_cons.mp h with h2 | h2
              · rw [h2]
                exact hc
              · exact keyLt_trans hc (hy.1 _ (List.mem_map_of_mem _ h2))
          · refine ih xs (y :: ys) (by rw [List.length_cons]; omega) hx.2 ?_
            rw [List.map_cons, List.pairwise_cons]
            exact hy
        · have hkeq : ekey x = ekey y := cmpKey_eq_iff.mp hc
          show ((if x.2.freq ≤ y.2.freq then y :: mergeDedup xs ys
              else x :: mergeDedup xs ys).map ekey).Pairwise keyLt
          split
          · rw [List.map_cons, List.pairwise_cons]
            constructor
            · intro b hb
              obtain ⟨z, hz, hbz⟩ := List.mem_map.mp hb
              subst hbz
              rcases mergeDedup_mem hz with h | h
              · rw [← hkeq]
                exact hx.1 _ (List.mem_map_of_mem _ h)
              · exact hy.1 _ (List.mem_map_of_mem _ h)
            · exact ih xs ys (by omega) hx.2 hy.2
          · rw [List.map_cons, List.pairwise_cons]
            constructor
            · intro b hb
              obtain ⟨z, hz, hbz⟩ := List.mem_map.mp hb
              subst hbz
              rcases mergeDedup_mem hz with h | h
              · exact hx.1 _ (List.mem_map_of_mem _ h)
              · rw [hkeq]
                exact hy.1 _ (List.mem_map_of_mem _ h)
            · exact ih xs ys (by omega) hx.2 hy.2
        · have hgt : keyLt (ekey y) (ekey x) := cmpKey_gt_iff.mp hc
          show ((y :: mergeDedup (x :: xs) ys).map ekey).Pairwise keyLt
          rw [List.map_cons, List.pairwise_cons]
          constructor
          · intro b hb
            obtain ⟨z, hz, hbz⟩ := List.mem_map.mp hb
            subst hbz
            rcases mergeDedup_mem hz with h | h
            · rcases List.mem_cons.mp h with h2 | h2
              · rw [h2]
                exact hgt
              · exact keyLt_trans hgt (hx.1 _ (List.mem_map_of_mem _ h2))
            · exact hy.1 _ (List.mem_map_of_mem _ h)
          · refine ih (x :: xs) ys (by rw [List.length_cons]; omega) ?_ hy.2
            rw [List.map_cons, List.pairwise_cons]
            exact hx

theorem mergeDedup_filter_nil {xs ys : List (List Nat × Phrase)}
    {km : List Nat × List Nat}
    (hx : ∀ e ∈ xs, ekey e ≠ km) (hy : ∀ e ∈ ys, ekey e ≠ km) :
    (mergeDedup xs ys).filter (fun e => decide (ekey e = km)) = [] := by
  rw [List.filter_eq_nil]
  intro e he hd
  rw [decide_eq_true_eq] at hd
  rcases mergeDedup_mem he with h | h
  · exact hx e h hd
  · exact hy e h hd

theorem mergeDedup_filter_aux : ∀ (n : Nat) (xs ys : List (List Nat × Phrase))
    (km : List Nat × List Nat) (x0 y0 : List Nat × Phrase),
    xs.length + ys.length ≤ n →
    (xs.map ekey).Pairwise keyLt → (ys.map ekey).Pairwise keyLt →
    x0 ∈ xs → ekey x0 = km → y0 ∈ ys → ekey y0 = km →
    (mergeDedup xs ys).filter (fun e => decide (ekey e = km)) =
      [if x0.2.freq ≤ y0.2.freq then y0 else x0] := by
  intro n
  induction n with
  | zero =>
    intro xs ys km x0 y0 hlen _ _ hx0 _ _ _
    rcases xs with _ | ⟨x, xs⟩
    · cases hx0
    · rw [List.length_cons] at hlen
      omega
  | succ n ih =>
    intro xs ys km x0 y0 hlen hx hy hx0 hex hy0 hey
    rcases xs with _ | ⟨x, xs⟩
    · cases hx0
    · rcases ys with _ | ⟨y, ys⟩
      · cases hy0
      · rw [List.length_cons, List.length_cons] at hlen
        rw [List.map_cons, List.pairwise_cons] at hx hy
        simp only [mergeDedup]
        rcases hc : cmpKey (ekey x) (ekey y) with _ | _ | _
        · -- store head strictly smaller: it cannot carry km
          have hxx : x ≠ x0 := by
            intro he
            subst he
            rw [hex] at hc
            rcases List.mem_cons.mp hy0 with h | h
            · rw [← h, hey, cmpKey_refl] at hc
              exact Ordering.noConfusion hc
            · have h2 := hy.1 _ (List.mem_map_of_mem _ h)
              rw [hey] at h2
              exact keyLt_irrefl km (keyLt_trans hc h2)
          have hx0b : x0 ∈ xs := by
            rcases List.mem_cons.mp hx0 with h | h
            · exact absurd h.symm hxx
            · exact h
          have hkx : ekey x ≠ km := by
            intro he
            have h2 := hx.1 _ (List.mem_map_of_mem _ hx0b)
            rw [hex, he] at h2
            exact keyLt_irrefl km h2
          show ((x :: mergeDedup xs (y :: ys)).filter
            (fun e => decide (ekey e = km))) = _
          rw [List.filter_cons, if_neg (by rw [decide_eq_true_eq]; exact hkx)]
          refine ih xs (y :: ys) km x0 y0 (by rw [List.length_cons]; omega) hx.2 ?_
            hx0b hex hy0 hey
          rw [List.map_cons, List.pairwise_cons]
          exact hy
        · have hkeq : ekey x = ekey y := cmpKey_eq_iff.mp hc
          by_cases hxx : x = x0
          · subst hxx
            have hyy : y = y0 := by
              rcases List.mem_cons.mp hy0 with h | h
              · exact h.symm
              · exfalso
                have h2 := hy.1 _ (List.mem_map_of_mem _ h)
                rw [hey, ← hkeq, hex] at h2
                exact keyLt_irrefl km h2
            subst hyy
            have hxtail : ∀ e ∈ xs, ekey e ≠ km := by
              intro e hemem he
              have h2 := hx.1 _ (List.mem_map_of_mem _ hemem)
              rw [hex, he] at h2
              exact keyLt_irrefl km h2
            have hytail : ∀ e ∈ ys, ekey e ≠ km := by
              intro e hemem he
              have h2 := hy.1 _ (List.mem_map_of_mem _ hemem)
              rw [hey, he] at h2
              exact keyLt_irrefl km h2
            show ((if x.2.freq ≤ y.2.freq then y :: mergeDedup xs ys
              else x :: mergeDedup xs ys).filter (fun e => decide (ekey e = km))) = _
            by_cases hf : x.2.freq ≤ y.2.freq
            · rw [if_pos hf, if_pos hf, List.filter_cons,
                if_pos (by rw [decide_eq_true_eq]; exact hey),
                mergeDedup_filter_nil hxtail hytail]
            · rw [if_neg hf, if_neg hf, List.filter_cons,
                if_pos (by rw [decide_eq_true_eq]; exact hex),
                mergeDedup_filter_nil hxtail hytail]
          · have hx0b : x0 ∈ xs := by
              rcases List.mem_cons.mp hx0 with h | h
              · exact absurd h.symm hxx
              · exact h
            have hkx : ekey x ≠ km := by
              intro he
              have h2 := hx.1 _ (List.mem_map_of_mem _ hx0b)
              rw [hex, he] at h2
              exact keyLt_irrefl km h2
            have hky : ekey y ≠ km := by
              rw [← hkeq]
              exact hkx
            have hy0b : y0 ∈ ys := by
              rcases List.mem_cons.mp hy0 with h | h
              · exfalso
                exact hky (by rw [← h]; exact hey)
              · exact h
            show ((if x.2.freq ≤ y.2.freq then y :: mergeDedup xs ys
              else x :: mergeDedup xs ys).filter (fun e => decide (ekey e = km))) = _
            by_cases hf : x.2.freq ≤ y.2.freq
            · rw [if_pos hf, List.filter_cons,
                if_neg (by rw [decide_eq_true_eq]; exact hky)]
              exact ih xs ys km x0 y0 (by omega) hx.2 hy.2 hx0b hex hy0b hey
            · rw [if_neg hf, List.filter_cons,
                if_neg (by rw [decide_eq_true_eq]; exact hkx)]
              exact ih xs ys km x0 y0 (by omega) hx.2 hy.2 hx0b hex hy0b hey
        · -- overlay head strictly smaller
          have hgt : keyLt (ekey y) (ekey x) := cmpKey_gt_iff.mp hc
          have hyy : y ≠ y0 := by
            intro he
            subst he
            rw [hey] at hgt
            rcases List.mem_cons.mp hx0 with h | h
            · rw [← h, hex] at hgt
              exact keyLt_irrefl km hgt
            · have h2 := hx.1 _ (List.mem_map_of_mem _ h)
              rw [hex] at h2
              exact keyLt_irrefl km (keyLt_trans hgt h2)
          have hy0b : y0 ∈ ys := by
            rcases List.mem_cons.mp hy0 with h | h
            · exact absurd h.symm hyy
            · exact h
          have hky : ekey y ≠ km := by
            intro he
            have h2 := hy.1 _ (List.mem_map_of_mem _ hy0b)
            rw [hey, he] at h2
            exact keyLt_irrefl km h2
          show ((y :: mergeDedup (x :: xs) ys).filter
            (fun e => decide (ekey e = km))) = _
          rw [List.filter_cons, if_neg (by rw [decide_eq_true_eq]; exact hky)]
          refine ih (x :: xs) ys km x0 y0 (by rw [List.length_cons]; omega) ?_ hy.2
            hx0 hex hy0b hey
          rw [List.map_cons, List.pairwise_cons]
          exact hx

theorem mergeDedup_filter_both {xs ys : List (List Nat × Phrase)}
    {km : List Nat × List Nat} {x0 y0 : List Nat × Phrase}
    (hx : (xs.map ekey).Pairwise keyLt) (hy : (ys.map ekey).Pairwise keyLt)
    (hx0 : x0 ∈ xs) (hex : ekey x0 = km) (hy0 : y0 ∈ ys) (hey : ekey y0 = km) :
    (mergeDedup xs ys).filter (fun e => decide (ekey e = km)) =
      [if x0.2.freq ≤ y0.2.freq then y0 else x0] :=
  mergeDedup_filter_aux (xs.length + ys.length) xs ys km x0 y0
    le_rfl hx hy hx0 hex hy0 hey

theorem btree_entries_sorted {d : KVDictionary} (hwf : WF d) :
    ((btree_entries d).map ekey).Pairwise keyLt := by
  unfold btree_entries
  rw [List.map_map, List.pairwise_map]
  exact hwf

/-- C6: when the backing store's full iteration honours the §4.2 ascending
contract (its decoded stream strictly ascends by phrase key) and the overlay
is a well-formed map listing, `entries_iter` yields phrase keys in strictly
ascending `(syllable-key bytes, phrase text)` order with no repeated key
(`entries()` maps this stream through the syllable decoding, in order). -/
theorem spec_c6_sorted_iteration (d : KVDictionary)
    (hs : ((store_entries d).map ekey).Pairwise keyLt) (hwf : WF d) :
    ((entries_iter d).map ekey).Pairwise keyLt ∧
    ((entries_iter d).map ekey).Nodup := by
  have hsorted := mergeDedup_sorted_aux
    ((store_entries d).length + (btree_entries d).length)
    (store_entries d) (btree_entries d) le_rfl hs (btree_entries_sorted hwf)
  have hfilter : ((entries_iter d).map ekey).Pairwise keyLt := by
    unfold entries_iter
    exact hsorted.sublist (List.Sublist.map ekey (List.filter_sublist _))
  exact ⟨hfilter, hfilter.imp (fun h => keyLt_ne h)⟩

/-- C6 witness: a one-record store and a one-entry overlay under distinct
keys; the iteration is strictly ascending and duplicate-free. -/
theorem spec_c6_witness :
    ((entries_iter ⟨some [([2, 0], [1, 0, 0, 0, 2, 0, 0, 0, 0, 0, 0, 0, 1, 97])],
      [(([2, 0], [98]), (7, 4))], []⟩).map ekey).Pairwise keyLt ∧
    ((entries_iter ⟨some [([2, 0], [1, 0, 0, 0, 2, 0, 0, 0, 0, 0, 0, 0, 1, 97])],
      [(([2, 0], [98]), (7, 4))], []⟩).map ekey).Nodup :=
  spec_c6_sorted_iteration _ (by decide) (by decide)

/-- C2: in the full-dictionary merge, equal phrase keys at the two heads
emit the overlay entry (advancing both streams) when the store frequency is
at most the overlay's, and the store entry (advancing both) when strictly
greater; consequently a key present in both sources, not tombstoned,
appears in `entries_iter` exactly once, with frequency `max F1 F2`, the
overlay variant winning ties and carrying its last-used timestamp. -/
theorem spec_c2_merge_tiebreak (d : KVDictionary) (k t : List Nat) (ps : Phrase)
    (F2 T2 : Nat)
    (hs : ((store_entries d).map ekey).Pairwise keyLt)
    (hwf : WF d)
    (hps : (k, ps) ∈ store_entries d) (hpst : ps.phrase = t)
    (hov : ((k, t), (F2, T2)) ∈ d.btree)
    (hg : (k, t) ∉ d.graveyard) :
    (∀ (x y : List Nat × Phrase) (xs ys : List (List Nat × Phrase)),
      cmpKey (ekey x) (ekey y) = .eq →
        (x.2.freq ≤ y.2.freq → mergeDedup (x :: xs) (y :: ys) = y :: mergeDedup xs ys) ∧
        (y.2.freq < x.2.freq → mergeDedup (x :: xs) (y :: ys) = x :: mergeDedup xs ys)) ∧
    ((entries_iter d).filter (fun e => decide (ekey e = (k, t))) =
      [if ps.freq ≤ F2 then (k, ⟨t, F2, some T2⟩) else (k, ps)]) ∧
    (∀ e ∈ (entries_iter d).filter (fun e => decide (ekey e = (k, t))),
      e.2.freq = max ps.freq F2 ∧ (ps.freq = F2 → e.2.last_used = some T2)) := by
  have hy0 : (k, (⟨t, F2, some T2⟩ : Phrase)) ∈ btree_entries d := by
    unfold btree_entries
    exact List.mem_map.mpr ⟨((k, t), (F2, T2)), hov, rfl⟩
  have hmain : (entries_iter d).filter (fun e => decide (ekey e = (k, t))) =
      [if ps.freq ≤ F2 then (k, ⟨t, F2, some T2⟩) else (k, ps)] := by
    unfold entries_iter
    rw [List.filter_filter]
    have hcongr : (mergeDedup (store_entries d) (btree_entries d)).filter
        (fun e => decide (ekey e = (k, t)) &&
          decide ((e.1, e.2.phrase) ∉ d.graveyard)) =
        ((mergeDedup (store_entries d) (btree_entries d)).filter
          (fun e => decide (ekey e = (k, t)))).filter
          (fun e => decide ((e.1, e.2.phrase) ∉ d.graveyard)) := by
      rw [List.filter_filter]
      apply List.filter_congr
      intro e _
      exact Bool.and_comm _ _
    rw [hcongr]
    rw [mergeDedup_filter_both hs (btree_entries_sorted hwf) hps
      (show ekey (k, ps) = (k, t) by
        show (k, ps.phrase) = (k, t)
        rw [hpst]) hy0 rfl]
    by_cases hf : ps.freq ≤ F2
    · rw [if_pos (show (k, ps).2.freq ≤ (k, (⟨t, F2, some T2⟩ : Phrase)).2.freq from hf)]
      rw [List.filter_cons, if_pos (by rw [decide_eq_true_eq]; exact hg)]
      rfl
    · rw [if_neg (show ¬ (k, ps).2.freq ≤ (k, (⟨t, F2, some T2⟩ : Phrase)).2.freq from hf)]
      rw [List.filter_cons, if_pos (by rw [decide_eq_true_eq]; rw [hpst]; exact hg)]
      rfl
  refine ⟨?_, hmain, ?_⟩
  · intro x y xs ys hceq
    simp only [mergeDedup]
    rw [hceq]
    constructor
    · intro hle
      rw [if_pos hle]
    · intro hlt
      rw [if_neg (Nat.not_le.mpr hlt)]
  · intro e he
    rw [hmain] at he
    rw [List.mem_singleton] at he
    subst he
    by_cases hf : ps.freq ≤ F2
    · rw [if_pos hf]
      exact ⟨(Nat.max_eq_right hf).symm, fun _ => rfl⟩
    · rw [if_neg hf]
      constructor
      · exact (Nat.max_eq_left (Nat.le_of_lt (Nat.not_le.mp hf))).symm
      · intro he2
        exact absurd (Nat.le_of_eq he2) hf

theorem btreeInsert_filter_key {key : List Nat × List Nat} {v : Nat × Nat} :
    ∀ {b : List ((List Nat × List Nat) × Nat × Nat)},
    b.Pairwise (fun a c => cmpKey a.1 c.1 = .lt) →
    (btreeInsert key v b).filter (fun e => decide (e.1 = key)) = [(key, v)] := by
  intro b
  induction b with
  | nil =>
    intro _
    show [(key, v)].filter (fun e => decide (e.1 = key)) = [(key, v)]
    rw [List.filter_cons, if_pos (by rw [decide_eq_true_eq])]
    rfl
  | cons e b ih =>
    intro hwf
    rw [List.pairwise_cons] at hwf
    unfold btreeInsert
    rcases hc : cmpKey key e.1 with _ | _ | _
    · have htail : (e :: b).filter (fun e2 => decide (e2.1 = key)) = [] := by
        rw [List.filter_eq_nil]
        intro a ha hd
        rw [decide_eq_true_eq] at hd
        rcases List.mem_cons.mp ha with h | h
        · rw [h] at hd
          exact (cmpKey_lt_ne hc) hd.symm
        · have h2 := hwf.1 a h
          have h3 := cmpKey_lt_trans hc h2
          exact (cmpKey_lt_ne h3) hd.symm
      show ((key, v) :: e :: b).filter (fun e2 => decide (e2.1 = key)) = [(key, v)]
      rw [List.filter_cons, if_pos (by rw [decide_eq_true_eq]), htail]
    · have hke : key = e.1 := cmpKey_eq_iff.mp hc
      have htail : b.filter (fun e2 => decide (e2.1 = key)) = [] := by
        rw [List.filter_eq_nil]
        intro a ha hd
        rw [decide_eq_true_eq] at hd
        have h2 := hwf.1 a ha
        rw [← hke] at h2
        exact (cmpKey_lt_ne h2) hd.symm
      show ((key, v) :: b).filter (fun e2 => decide (e2.1 = key)) = [(key, v)]
      rw [List.filter_cons, if_pos (by rw [decide_eq_true_eq]), htail]
    · have hke : e.1 ≠ key := by
        intro he
        rw [he] at hc
        exact (cmpKey_lt_ne (cmpKey_gt_iff.mp hc)) rfl
      show (e :: btreeInsert key v b).filter (fun e2 => decide (e2.1 = key)) = [(key, v)]
      rw [List.filter_cons, if_neg (by rw [decide_eq_true_eq]; exact hke)]
      exact ih hwf.2

/-- C3 (amended): adding a phrase whose key is neither tombstoned nor
present, and whose text is lexicographically below `"\u{10FFFF}"` (the
range scan's exclusive upper bound — texts at or above it are invisible to
the exact-key lookup), succeeds, and a lookup on the same syllable key with
`n` at least the number of matching candidates returns that phrase exactly
once (its last-used defaulting to zero when absent). -/
theorem spec_c3_round_trip (d d2 : KVDictionary) (k t : List Nat) (f : Nat)
    (lu : Option Nat) (n : Nat)
    (hwf : WF d)
    (hmax : cmpList t MAX_PHRASE = .lt)
    (hgrave : (k, t) ∉ d.graveyard)
    (hstore : ∀ q ∈ store_entries_for d k, q.phrase ≠ t)
    (hbtree : ∀ v, ((k, t), v) ∉ d.btree)
    (hadd : add_phrase d k ⟨t, f, lu⟩ = .ok d2)
    (hn : (entries_iter_for d2 k).length ≤ n) :
    (lookup_first_n_phrases d2 k n).filter (fun q => decide (q.phrase = t)) =
      [⟨t, f, some (lu.getD 0)⟩] := by
  have hd2 : d2 = { d with btree := btreeInsert (k, t) (f, lu.getD 0) d.btree } := by
    unfold add_phrase at hadd
    split at hadd
    · exact Except.noConfusion hadd
    · injection hadd with h2
      exact h2.symm
  subst hd2
  set d2 : KVDictionary :=
    { d with btree := btreeInsert (k, t) (f, lu.getD 0) d.btree } with hd2def
  have hfil : (entries_iter_for d2 k).filter (fun q => decide (q.phrase = t)) =
      [⟨t, f, some (lu.getD 0)⟩] := by
    unfold entries_iter_for
    rw [List.filter_filter, List.filter_append]
    have hsnil : (store_entries_for d2 k).filter
        (fun q => decide (q.phrase = t) && decide ((k, q.phrase) ∉ d2.graveyard)) = [] := by
      rw [List.filter_eq_nil]
      intro q hq hp
      rw [Bool.and_eq_true, decide_eq_true_eq] at hp
      exact hstore q hq hp.1
    rw [hsnil]
    unfold btreeRange
    rw [List.filter_map, List.filter_filter]
    have hpred : ∀ e ∈ d2.btree,
        (((fun q => decide (q.phrase = t) && decide ((k, q.phrase) ∉ d2.graveyard)) ∘
          btreePhrase) e && inRange k e.1) = decide (e.1 = (k, t)) := by
      intro e _
      obtain ⟨⟨e1, e2⟩, ev⟩ := e
      show ((decide (e2 = t) && decide ((k, e2) ∉ d2.graveyard)) && inRange k (e1, e2)) =
        decide ((e1, e2) = (k, t))
      by_cases h2 : e2 = t
      · by_cases h1 : e1 = k
        · rw [decide_eq_true h2]
          rw [decide_eq_true (show (k, e2) ∉ d2.graveyard from by rw [h2]; exact hgrave)]
          rw [show inRange k (e1, e2) = true from
            inRange_iff.mpr ⟨h1, by rw [h2]; exact hmax⟩]
          rw [decide_eq_true (show (e1, e2) = (k, t) from by rw [h1, h2])]
          rfl
        · have hi : inRange k (e1, e2) = false :=
            Bool.eq_false_iff.mpr (fun hr => h1 (inRange_iff.mp hr).1)
          have hd : decide ((e1, e2) = (k, t)) = false :=
            decide_eq_false (fun he => h1 (congrArg Prod.fst he))
          rw [hi, hd, Bool.and_false]
      · have hd1 : decide (e2 = t) = false := decide_eq_false h2
        have hd : decide ((e1, e2) = (k, t)) = false :=
          decide_eq_false (fun he => h2 (congrArg Prod.snd he))
        rw [hd1, hd, Bool.false_and, Bool.false_and]
    rw [List.filter_congr hpred]
    rw [btreeInsert_filter_key hwf]
    rfl
  have hmem : (⟨t, f, some (lu.getD 0)⟩ : Phrase) ∈ entries_iter_for d2 k := by
    have h1 : (⟨t, f, some (lu.getD 0)⟩ : Phrase) ∈
        (entries_iter_for d2 k).filter (fun q => decide (q.phrase = t)) := by
      rw [hfil]
      exact List.mem_singleton.mpr rfl
    exact (List.mem_filter.mp h1).1
  have hfold := lookupFold_spec sortMapInv_nil (entries_iter_for d2 k)
  have htfull : t ∈ (dedupPhrases (entries_iter_for d2 k)).map (·.phrase) := by
    unfold dedupPhrases
    rw [dedupFold_texts _ []]
    rw [show ([] : List Phrase).map (·.phrase) = [] from rfl]
    rw [firstSeen_mem]
    exact Or.inr (List.mem_map_of_mem _ hmem)
  have hnd : ((dedupPhrases (entries_iter_for d2 k)).map (·.phrase)).Nodup := by
    unfold dedupPhrases
    rw [dedupFold_texts _ []]
    exact firstSeen_nodup _ [] List.nodup_nil
  obtain ⟨e, hfe, hel, het⟩ := filter_unique_of_nodup hnd htfull
  have hdom := dedup_dom (entries_iter_for d2 k) [] []
    (fun a ha => absurd ha (List.not_mem_nil a))
    (fun q hq => absurd hq (List.not_mem_nil q)) e hel
  rw [List.nil_append] at hdom
  have he2 : e ∈ (entries_iter_for d2 k).filter (fun q => decide (q.phrase = t)) := by
    rw [List.mem_filter]
    exact ⟨hdom.1, by rw [decide_eq_true_eq]; exact het⟩
  rw [hfil, List.mem_singleton] at he2
  have hlen : (dedupPhrases (entries_iter_for d2 k)).length ≤ n := by
    have h1 : (dedupPhrases (entries_iter_for d2 k)).length =
        ((dedupPhrases (entries_iter_for d2 k)).map (·.phrase)).length := by
      rw [List.length_map]
    have h2 := firstSeen_length ((entries_iter_for d2 k).map (·.phrase)) []
    rw [List.length_map] at h2
    unfold dedupPhrases at h1 ⊢
    rw [h1, dedupFold_texts _ []]
    calc (((entries_iter_for d2 k).map (·.phrase)).foldl firstSeenStep
        (([] : List Phrase).map (·.phrase))).length
        ≤ ([] : List (List Nat)).length + (entries_iter_for d2 k).length := h2
      _ ≤ n := by
        rw [List.length_nil]
        omega
  have hlook : lookup_first_n_phrases d2 k n = dedupPhrases (entries_iter_for d2 k) := by
    unfold lookup_first_n_phrases dedupPhrases
    rw [hfold.1]
    exact List.take_of_length_le hlen
  rw [hlook, hfe, he2]

/-- C3 witness: adding text `"a"` (frequency 3, no timestamp) to the empty
in-memory dictionary and looking it up returns it exactly once, last-used
defaulted to zero. -/
theorem spec_c3_witness :
    (lookup_first_n_phrases ⟨none, [(([2, 0], [97]), (3, 0))], []⟩ [2, 0] 5).filter
      (fun q => decide (q.phrase = [97])) = [⟨[97], 3, some 0⟩] :=
  spec_c3_round_trip ⟨none, [], []⟩ ⟨none, [(([2, 0], [97]), (3, 0))], []⟩
    [2, 0] [97] 3 none 5 (by decide) (by decide) (by decide) (by decide)
    (fun v hv => absurd hv (List.not_mem_nil _)) (by rfl) (by decide)

/-- C3 counterexample: a phrase whose text is `"\u{10FFFF}"` (the range
scan's exclusive upper bound) is added successfully to the empty in-memory
dictionary — nothing is tombstoned or present — yet the subsequent lookup
on the same syllable key returns nothing instead of the phrase. -/
theorem spec_c3_counterexample :
    add_phrase ⟨none, [], []⟩ [2, 0] ⟨MAX_PHRASE, 1, some 2⟩ =
      .ok ⟨none, [(([2, 0], MAX_PHRASE), (1, 2))], []⟩ ∧
    (([2, 0], MAX_PHRASE) ∉ ([] : List (List Nat × List Nat))) ∧
    lookup_first_n_phrases ⟨none, [(([2, 0], MAX_PHRASE), (1, 2))], []⟩ [2, 0] 5 = [] :=
  ⟨by rfl, by decide, by rfl⟩

/-- C2 witness: text `"a"` under one syllable key in both sources, store
frequency 5 (timestamp 9) and overlay frequency 7 (timestamp 4); the merge
emits the overlay entry once. -/
theorem spec_c2_witness :
    (∀ (x y : List Nat × Phrase) (xs ys : List (List Nat × Phrase)),
      cmpKey (ekey x) (ekey y) = .eq →
        (x.2.freq ≤ y.2.freq → mergeDedup (x :: xs) (y :: ys) = y :: mergeDedup xs ys) ∧
        (y.2.freq < x.2.freq → mergeDedup (x :: xs) (y :: ys) = x :: mergeDedup xs ys)) ∧
    ((entries_iter ⟨some [([2, 0], [5, 0, 0, 0, 9, 0, 0, 0, 0, 0, 0, 0, 1, 97])],
        [(([2, 0], [97]), (7, 4))], []⟩).filter
      (fun e => decide (ekey e = ([2, 0], [97]))) =
      [if (5 : Nat) ≤ 7 then ([2, 0], ⟨[97], 7, some 4⟩) else ([2, 0], ⟨[97], 5, some 9⟩)]) ∧
    (∀ e ∈ (entries_iter ⟨some [([2, 0], [5, 0, 0, 0, 9, 0, 0, 0, 0, 0, 0, 0, 1, 97])],
        [(([2, 0], [97]), (7, 4))], []⟩).filter
      (fun e => decide (ekey e = ([2, 0], [97]))),
      e.2.freq = max 5 7 ∧ ((5 : Nat) = 7 → e.2.last_used = some 4)) :=
  spec_c2_merge_tiebreak
    ⟨some [([2, 0], [5, 0, 0, 0, 9, 0, 0, 0, 0, 0, 0, 0, 1, 97])],
      [(([2, 0], [97]), (7, 4))], []⟩
    [2, 0] [97] ⟨[97], 5, some 9⟩ 7 4
    (by decide) (by decide) (by decide) rfl (by decide) (by decide)

/-- C2 counterexample: the same key in both sources (store frequency 5,
overlay frequency 7) but tombstoned — `entries_iter` yields no entry for
it at all, not one entry of frequency `max F1 F2`. -/
theorem spec_c2_counterexample :
    ((([2, 0], [97]), (7, 4)) ∈
      (⟨some [([2, 0], [5, 0, 0, 0, 9, 0, 0, 0, 0, 0, 0, 0, 1, 97])],
        [(([2, 0], [97]), (7, 4))], [([2, 0], [97])]⟩ : KVDictionary).btree) ∧
    (([2, 0], (⟨[97], 5, some 9⟩ : Phrase)) ∈
      store_entries ⟨some [([2, 0], [5, 0, 0, 0, 9, 0, 0, 0, 0, 0, 0, 0, 1, 97])],
        [(([2, 0], [97]), (7, 4))], [([2, 0], [97])]⟩) ∧
    (entries_iter ⟨some [([2, 0], [5, 0, 0, 0, 9, 0, 0, 0, 0, 0, 0, 0, 1, 97])],
        [(([2, 0], [97]), (7, 4))], [([2, 0], [97])]⟩).filter
      (fun e => decide (ekey e = ([2, 0], [97]))) = [] := by
  refine ⟨by decide, by decide, ?_⟩
  rw [List.filter_eq_nil]
  intro e he hd
  rw [decide_eq_true_eq] at hd
  have h1 : e.1 = [2, 0] := congrArg Prod.fst hd
  have h2 : e.2.phrase = [97] := congrArg Prod.snd hd
  exact suppress_entries_iter (by decide) e he h1 h2
